import Mathlib

/-!
Verification development for the sidetree-ratatui-crossterm terminal file tree.

The Rust sources under `src/` are shallowly embedded below:

* `keymap.rs`   : key notation (`parse_key`) and the `KeyMap` table;
* `file_tree.rs`: `TreeEntry`, `ExpandedPaths`, `FileTreeState` and the
  flattening into `TreeEntryLine`s;
* `prompt.rs`   : `PromptState` / `StatusLine` and the per-kind history;
* `app.rs`      : `KeyPress`, the command executor `run_command`, the shell
  helper `run_shell`, and the key dispatch `App.on_key`;
* `config.rs`   : `Config` and `set_opt`.

Filesystem reads are modelled by an explicit read-only `Fs` record;
filesystem and process mutations performed by commands are modelled as an
explicit list of `Effect`s.  Paths are modelled as their list of components
below the filesystem root, so the root path `/` is `[]` and `absolutize` on
the already absolute paths of the model is the identity.  The recursive
rescan `TreeEntry::update` terminates in Rust only because a real disk is
finite; the embedding makes the recursion depth explicit with a fuel
parameter, the rest of the code is fuel-free.
-/

namespace Sidetree

/-! ### Comparisons and the stable sort used by `TreeEntry::read_fs`

`read_fs` sorts children with Rust's stable `sort_by`, first by
`Path::cmp` (lexicographic over components, bytewise per component), then
by descending `is_dir`.  A stable sort's output is uniquely determined by
the comparator and input order, so any correctly stable sort embeds it; we
use a left-to-right insertion sort that inserts after equal elements. -/

/-- Three way comparison of characters by code point (Rust compares strings
bytewise; UTF-8 byte order agrees with code point order). -/
def charCmp (a b : Char) : Ordering :=
  if a < b then .lt else if b < a then .gt else .eq

/-- Lexicographic three way comparison of lists from an element comparison. -/
def listCmp (cmp : α → α → Ordering) : List α → List α → Ordering
  | [], [] => .eq
  | [], _ :: _ => .lt
  | _ :: _, [] => .gt
  | a :: as, b :: bs =>
    match cmp a b with
    | .eq => listCmp cmp as bs
    | .lt => .lt
    | .gt => .gt

/-- Three way comparison of strings, `str::cmp`. -/
def strCmp (a b : String) : Ordering :=
  listCmp charCmp a.data b.data

/-- Three way comparison of paths, `Path::cmp` (componentwise). -/
def pathCmp (a b : List String) : Ordering :=
  listCmp strCmp a b

/-- Boolean `≤` on paths derived from `pathCmp`. -/
def pathLeb (a b : List String) : Bool :=
  match pathCmp a b with
  | .gt => false
  | _ => true

/-- The properties of a lawful three way comparison that we need. -/
def IsLawfulCmp (cmp : α → α → Ordering) : Prop :=
  (∀ a, cmp a a = .eq) ∧ (∀ a b, cmp a b = .eq → a = b) ∧
  (∀ a b, cmp a b = .lt ↔ cmp b a = .gt) ∧
  (∀ a b c, cmp a b = .lt → cmp b c = .lt → cmp a c = .lt)

/-- Insert `x` into `l` after every element `y` with `le y x`; inserting the
later-arriving element after ties is what makes the sort stable. -/
def insertS (le : α → α → Bool) (x : α) : List α → List α
  | [] => [x]
  | y :: t => if le y x then y :: insertS le x t else x :: y :: t

/-- Stable sort: fold the input left to right through `insertS`.  Embeds
Rust's stable `slice::sort_by` for the comparator inducing `le`. -/
def stableSort (le : α → α → Bool) (l : List α) : List α :=
  l.foldl (fun acc x => insertS le x acc) []

/-! ### Keys: `app.rs` (`KeyPress`) and `keymap.rs` (`parse_key`, `KeyMap`) -/

/-- Key codes (crossterm `KeyCode`, the constructors the program uses). -/
inductive KeyCode where
  | Char (c : Char)
  | Enter | Esc | BackTab | Backspace | Delete | Home | End
  | Up | Down | Left | Right | Insert | PageUp | PageDown
  | Tab | F (n : Nat) | Null
deriving DecidableEq, Repr

/-- Modifier bitset (crossterm `KeyModifiers`), one flag per relevant bit. -/
structure KeyModifiers where
  alt : Bool
  control : Bool
  shift : Bool
deriving DecidableEq, Repr

def KeyModifiers.NONE : KeyModifiers := ⟨false, false, false⟩

def KeyModifiers.ALT : KeyModifiers := ⟨true, false, false⟩

def KeyModifiers.CONTROL : KeyModifiers := ⟨false, true, false⟩

/-- `KeyPress(KeyCode, KeyModifiers)` from `app.rs`. -/
structure KeyPress where
  code : KeyCode
  mods : KeyModifiers
deriving DecidableEq, Repr

/-- `KeyPress::charize`: keep `modifier`'s key code, keep `self`'s modifiers. -/
def KeyPress.charize (self modifier : KeyPress) : KeyPress :=
  ⟨modifier.code, self.mods⟩

/-- `KeyPress::has_alt`: the bitset test `mods & ALT != NONE`. -/
def KeyPress.has_alt (k : KeyPress) : Bool :=
  k.mods.alt

/-- The `char_key` word table of `parse_key`, including the final
single-character case.  Rust guards that case with `c.len() == 1`, which is
the UTF-8 *byte* length, so only one-byte characters pass. -/
def charKeyAlias (w : String) : Option Char :=
  match w with
  | "return" => some '\n'
  | "ret" => some '\n'
  | "semicolon" => some ';'
  | "gt" => some '>'
  | "lt" => some '<'
  | "percent" => some '%'
  | "space" => some ' '
  | "tab" => some '\t'
  | _ => if w.utf8ByteSize = 1 then w.data.head? else none

/-- The `non_mod` named-key word table of `parse_key`. -/
def namedKeyWord (w : String) : Option KeyCode :=
  match w with
  | "esc" => some .Esc
  | "backtab" => some .BackTab
  | "backspace" => some .Backspace
  | "del" => some .Delete
  | "home" => some .Home
  | "end" => some .End
  | "up" => some .Up
  | "down" => some .Down
  | "left" => some .Left
  | "right" => some .Right
  | "insert" => some .Insert
  | "pageup" => some .PageUp
  | "pagedown" => some .PageDown
  | _ => none

/-- The `modifier()` combinator of `parse_key`: an optional `a-`/`c-`
prefix; `attempt` makes failures non-consuming, so no prefix is consumed
when neither matches. -/
def stripModifier (rest : List Char) : KeyModifiers × List Char :=
  match rest with
  | 'a' :: '-' :: t => (KeyModifiers.ALT, t)
  | 'c' :: '-' :: t => (KeyModifiers.CONTROL, t)
  | _ => (KeyModifiers.NONE, rest)

/-- `parse_key` from `keymap.rs`, written with the combine-parser semantics
made explicit.  `long().or(short())` tries the bracketed form first and falls
back to the short form only when no `<` was consumed.  Inside brackets,
`attempt(modifier().and(char_key())).or(non_mod())` first strips an optional
`a-`/`c-` prefix and reads up to `>` through the `char_key` table
(`many1(none_of(">"))`); when that branch fails the `attempt` rolls the
modifier back and `non_mod()` re-reads a `many1(letter())` word from the
start.  `between` demands the closing `>` and `skip(eof())` demands that the
whole input is consumed; `None` stands for the textual parse error.
(`combine`'s `letter()` accepts Unicode letters while `Char.isAlpha` is
ASCII; both reject every non-ASCII word since no key word contains one.) -/
def parse_key (input : String) : Option KeyPress :=
  match input.data with
  | '<' :: rest =>
    let stripped := stripModifier rest
    let w := stripped.2.takeWhile (fun c => c != '>')
    let rem := stripped.2.dropWhile (fun c => c != '>')
    match if w.isEmpty then none else charKeyAlias (String.mk w) with
    | some c =>
      -- `f().charize(c)`: the parsed character with the modifier's bitset
      match rem with
      | ['>'] => some ⟨KeyCode.Char c, stripped.1⟩
      | _ => none
    | none =>
      let w2 := rest.takeWhile (fun c => c.isAlpha)
      let rem2 := rest.dropWhile (fun c => c.isAlpha)
      match if w2.isEmpty then none else namedKeyWord (String.mk w2) with
      | some kc =>
        match rem2 with
        | ['>'] => some ⟨kc, KeyModifiers.NONE⟩
        | _ => none
      | none => none
  | [] => none
  | cs =>
    let w := cs.takeWhile (fun c => c != '>')
    let rem := cs.dropWhile (fun c => c != '>')
    match if w.isEmpty then none else charKeyAlias (String.mk w) with
    | some c =>
      match rem with
      | [] => some ⟨KeyCode.Char c, KeyModifiers.NONE⟩
      | _ => none
    | none => none

/-! ### Commands and configuration (`config.rs`; the `Command` enum lives in
`commands.rs`, which is not among the sources — its variants and payloads are
pinned by the exhaustive `match` in `App::run_command` and by the spec's data
model). -/

/-- The `Command` enum, shaped exactly as consumed by `App::run_command`. -/
inductive Command where
  | Quit
  | Shell (cmd : String)
  | Open (path : Option (List String))
  | CmdStr (cmd : String)
  | Set (opt val : String)
  | Echo (msg : String)
  | Cd (path : Option (List String))
  | MapKey (key : KeyPress) (cmd : Command)
  | Rename (name : Option String)
  | NewFile (name : Option String)
  | NewDir (name : Option String)
  | Delete (prompt : Bool)
deriving DecidableEq, Repr

/-- `Config` from `config.rs`. -/
structure Config where
  show_hidden : Bool
  open_cmd : String
  quit_on_open : Bool
  file_icons : Bool
deriving DecidableEq, Repr

/-- `Config::default`. -/
def Config.default : Config :=
  { show_hidden := false
    open_cmd := "kcr edit \"$1\"; kcr send focus"
    quit_on_open := false
    file_icons := false }

/-- `str::parse::<bool>`: accepts exactly `true` and `false`. -/
def parseBoolOpt (val : String) : Option Bool :=
  if val = "true" then some true
  else if val = "false" then some false
  else none

/-- `Config::set_opt`. -/
def Config.set_opt (c : Config) (opt val : String) : Except String Config :=
  match opt with
  | "open_cmd" => .ok { c with open_cmd := val }
  | "show_hidden" =>
    match parseBoolOpt val with
    | some b => .ok { c with show_hidden := b }
    | none => .error "Could not parse option value"
  | "quit_on_open" =>
    match parseBoolOpt val with
    | some b => .ok { c with quit_on_open := b }
    | none => .error "Could not parse option value"
  | "file_icons" =>
    match parseBoolOpt val with
    | some b => .ok { c with file_icons := b }
    | none => .error "Could not parse option value"
  | _ => .error ("unknown option " ++ opt)

/-! ### The tree synchronization engine (`file_tree.rs`)

Paths are lists of components below the filesystem root; `/` is `[]`.
`std::fs::read_dir` yields entries whose `.path()` is always the listed
directory joined with the entry's file name, so the read model returns the
child *names* and the embedding joins them. -/

/-- Read-only model of the filesystem calls the program makes. -/
structure Fs where
  /-- `std::fs::read_dir`: `none` is an `Err`; per-entry errors are already
  dropped by the `filter_map(.ok)` in `read_fs`, so a reading of a directory
  is just the list of child names that were read successfully. -/
  readDir : List String → Option (List String)
  /-- `path.metadata().map(|m| m.is_dir()).unwrap_or(false)`. -/
  isDir : List String → Bool
  /-- `path.read_link().is_ok()`. -/
  isLink : List String → Bool
  /-- `path.exists()`. -/
  pathExists : List String → Bool

/-- `TreeEntry` from `file_tree.rs`. -/
inductive TreeEntry where
  | mk (path : List String) (is_dir : Bool) (is_link : Bool)
      (children : List TreeEntry) (expanded : Bool)

def TreeEntry.path : TreeEntry → List String
  | .mk p _ _ _ _ => p

def TreeEntry.is_dir : TreeEntry → Bool
  | .mk _ d _ _ _ => d

def TreeEntry.is_link : TreeEntry → Bool
  | .mk _ _ l _ _ => l

def TreeEntry.children : TreeEntry → List TreeEntry
  | .mk _ _ _ cs _ => cs

/-- `TreeEntry::is_expanded`: the cached expanded flag. -/
def TreeEntry.is_expanded : TreeEntry → Bool
  | .mk _ _ _ _ e => e

/-- `TreeEntry::new`: the path is already absolute in the model, the flags
are read from the filesystem, children start empty and collapsed. -/
def TreeEntry.new (fs : Fs) (path : List String) : TreeEntry :=
  .mk path (fs.isDir path) (fs.isLink path) [] false

/-- `ExpandedPaths`, a `HashSet<PathBuf>` (embedded as a duplicate-free
insertion list; only membership is ever observed). -/
structure ExpandedPaths where
  expanded_paths : List (List String)
deriving DecidableEq, Repr

def ExpandedPaths.empty : ExpandedPaths := ⟨[]⟩

/-- `ExpandedPaths::is_expanded`. -/
def ExpandedPaths.is_expanded (e : ExpandedPaths) (p : List String) : Bool :=
  e.expanded_paths.contains p

/-- `ExpandedPaths::expand` (`HashSet::insert`). -/
def ExpandedPaths.expand (e : ExpandedPaths) (p : List String) : ExpandedPaths :=
  if e.is_expanded p then e else ⟨p :: e.expanded_paths⟩

/-- `ExpandedPaths::collapse` (`HashSet::remove`). -/
def ExpandedPaths.collapse (e : ExpandedPaths) (p : List String) : ExpandedPaths :=
  ⟨e.expanded_paths.filter (fun q => q != p)⟩

/-- `ExpandedPaths::toggle_expanded`: `if !remove(path) { expand(path) }`. -/
def ExpandedPaths.toggle_expanded (e : ExpandedPaths) (p : List String) : ExpandedPaths :=
  if e.is_expanded p then e.collapse p else e.expand p

/-- `ExpandedPaths::extend`: set union. -/
def ExpandedPaths.extendP (e : ExpandedPaths) (x : ExpandedPaths) : ExpandedPaths :=
  x.expanded_paths.foldl (fun acc q => acc.expand q) e

/-- `Vec::remove` of the first child whose path is `p`
(`children.iter().position(|e| e.path == p).map(|i| children.remove(i))`).
Returns the removed child, if any, and the remaining children. -/
def removeChild (p : List String) : List TreeEntry → Option TreeEntry × List TreeEntry
  | [] => (none, [])
  | c :: cs =>
    if c.path = p then (some c, cs)
    else
      let r := removeChild p cs
      (r.1, c :: r.2)

/-- The body of `read_fs`'s `filter_map`: for each listed name, reuse the
existing child with the same path (removing it from the old list so it is
not matched twice), otherwise construct a fresh `TreeEntry`. -/
def mergeChildren (fs : Fs) (dir : List String) :
    List TreeEntry → List String → List TreeEntry
  | _, [] => []
  | old, n :: ns =>
    let q := dir ++ [n]
    match removeChild q old with
    | (some c, old2) => c :: mergeChildren fs dir old2 ns
    | (none, _) => TreeEntry.new fs q :: mergeChildren fs dir old ns

/-- The comparator of the first `sort_by`: `a.path.cmp(&b.path)`. -/
def entryPathLeb (a b : TreeEntry) : Bool :=
  pathLeb a.path b.path

/-- The comparator of the second `sort_by`: `b.is_dir.cmp(&a.is_dir)`,
i.e. directories sort before files. -/
def dirLeb (a b : TreeEntry) : Bool :=
  a.is_dir || !b.is_dir

/-- The two stable sorts at the end of `read_fs`: by path, then (stably) by
descending `is_dir`. -/
def sortChildren (cs : List TreeEntry) : List TreeEntry :=
  stableSort dirLeb (stableSort entryPathLeb cs)

/-- `TreeEntry::read_fs`: list the directory, reuse or create children,
degrade an `Err` to no children (`unwrap_or(vec![])`), then sort. -/
def TreeEntry.read_fs (fs : Fs) : TreeEntry → TreeEntry
  | .mk p d l cs e =>
    let merged :=
      match fs.readDir p with
      | some ns => mergeChildren fs p cs ns
      | none => []
    .mk p d l (sortChildren merged) e

/-- `TreeEntry::update`: refresh the cached expanded flag from
`ExpandedPaths`, re-read the directory if expanded, then recurse into the
(new) children.  The recursion depth is made explicit by `fuel`; at fuel 0
the entry is returned unchanged (real runs use ample fuel, the disk being
finite). -/
def TreeEntry.update (fs : Fs) (exp : ExpandedPaths) : Nat → TreeEntry → TreeEntry
  | 0, t => t
  | fuel + 1, .mk p d l cs _ =>
    let e := exp.is_expanded p
    let t2 := if e then TreeEntry.read_fs fs (.mk p d l cs e) else .mk p d l cs e
    .mk p d l (t2.children.map (TreeEntry.update fs exp fuel)) e

/-- `TreeEntryLine`: the render-ready projection of one entry.  The styled
label segments are pure presentation and omitted; the existence condition of
the label (`path.file_name()` being present) is kept in `build_line`. -/
structure TreeEntryLine where
  path : List String
  level : Nat
deriving DecidableEq, Repr

/-- `str::starts_with(".")`: the first character is a dot. -/
def startsWithDot (s : String) : Bool :=
  match s.data with
  | c :: _ => c == '.'
  | [] => false

/-- `str::ends_with('/')`: the last character is a slash. -/
def endsWithSlash (s : String) : Bool :=
  match s.data.getLast? with
  | some c => c == '/'
  | none => false

/-- `TreeEntry::should_show_item`. -/
def TreeEntry.should_show_item (t : TreeEntry) (conf : Config) (level : Nat) : Bool :=
  if level = 0 then true
  else
    let hidden := !conf.show_hidden &&
      (match t.path.getLast? with
       | some n => startsWithDot n
       | none => false)
    !hidden

/-- `TreeEntry::build_line`: `None` for hidden entries and for paths without
a file name. -/
def TreeEntry.build_line (t : TreeEntry) (conf : Config) (level : Nat) :
    Option TreeEntryLine :=
  if !(t.should_show_item conf level) then none
  else t.path.getLast?.map (fun _ => ⟨t.path, level⟩)

mutual

/-- `TreeEntry::build_lines_rec`: the entry's own line followed, when the
line exists and the entry is expanded, by the lines of its children one
level deeper. -/
def TreeEntry.build_lines_rec (conf : Config) : TreeEntry → Nat → List TreeEntryLine
  | .mk p d li cs e, level =>
    let line := (TreeEntry.mk p d li cs e).build_line conf level
    if line.isSome && e then
      line.toList ++ TreeEntry.build_lines_recL conf cs (level + 1)
    else
      line.toList

def TreeEntry.build_lines_recL (conf : Config) : List TreeEntry → Nat → List TreeEntryLine
  | [], _ => []
  | c :: cs, level =>
    TreeEntry.build_lines_rec conf c level ++ TreeEntry.build_lines_recL conf cs level

end

mutual

/-- `TreeEntry::find`: depth-first search for the entry matching a line's
path. -/
def TreeEntry.find (t : TreeEntry) (ln : TreeEntryLine) : Option TreeEntry :=
  match t with
  | .mk p d li cs e =>
    if ln.path = p then some (.mk p d li cs e)
    else TreeEntry.findL cs ln

def TreeEntry.findL (cs : List TreeEntry) (ln : TreeEntryLine) : Option TreeEntry :=
  match cs with
  | [] => none
  | c :: cs =>
    match TreeEntry.find c ln with
    | some r => some r
    | none => TreeEntry.findL cs ln

end

mutual

/-- All entries of a tree (the entry itself and, recursively, its
children); used to state the tree invariants. -/
def TreeEntry.subEntries : TreeEntry → List TreeEntry
  | .mk p d li cs e => .mk p d li cs e :: TreeEntry.subEntriesL cs

def TreeEntry.subEntriesL : List TreeEntry → List TreeEntry
  | [] => []
  | c :: cs => TreeEntry.subEntries c ++ TreeEntry.subEntriesL cs

end

/-- `FileTreeState`: the root entry, the expanded-path set and the flattened
line list with its selection.  The `StatefulList` helper of `util.rs` is not
among the sources; per the spec it is an indexed selection into `lines`,
with clamped (non-wrapping) movement. -/
structure FileTreeState where
  root_entry : TreeEntry
  expanded_paths : ExpandedPaths
  lines : List TreeEntryLine
  selected : Option Nat

/-- `FileTreeState::new`: absolutized root, root marked expanded in
`ExpandedPaths`, empty line list, index 0 selected. -/
def FileTreeState.new (fs : Fs) (path : List String) : FileTreeState :=
  let root := TreeEntry.new fs path
  { root_entry := root
    expanded_paths := ExpandedPaths.empty.expand root.path
    lines := []
    selected := some 0 }

/-- Modelled from the spec: `StatefulList::selected` (`util.rs` is not among
the sources) — the line at the selection index, if valid.  Backs
`FileTreeState::line`. -/
def FileTreeState.line (st : FileTreeState) : Option TreeEntryLine :=
  st.selected.bind (fun i => st.lines.get? i)

/-- `FileTreeState::selected_idx` (`StatefulList::index`). -/
def FileTreeState.selected_idx (st : FileTreeState) : Option Nat :=
  st.selected

/-- Modelled from the spec: `StatefulList::next` — move down one line,
clamped at the last line. -/
def FileTreeState.select_next (st : FileTreeState) : FileTreeState :=
  match st.selected with
  | some i => { st with selected := some (if i + 1 < st.lines.length then i + 1 else i) }
  | none => st

/-- Modelled from the spec: `StatefulList::previous` — move up one line,
clamped at 0. -/
def FileTreeState.select_prev (st : FileTreeState) : FileTreeState :=
  match st.selected with
  | some i => { st with selected := some (i - 1) }
  | none => st

/-- Modelled from the spec: `StatefulList::nth` — select line `n`, clamped
to the current line range. -/
def FileTreeState.select_nth (st : FileTreeState) (n : Nat) : FileTreeState :=
  if st.lines.isEmpty then st
  else { st with selected := some (min n (st.lines.length - 1)) }

/-- `FileTreeState::select_path`: select the line with the given
(absolutized) path, if one exists; otherwise leave the selection alone. -/
def FileTreeState.select_path (st : FileTreeState) (p : List String) : FileTreeState :=
  match st.lines.findIdx? (fun ln => ln.path == p) with
  | some idx => { st with selected := some idx }
  | none => st

def FileTreeState.toggle_expanded (st : FileTreeState) (p : List String) : FileTreeState :=
  { st with expanded_paths := st.expanded_paths.toggle_expanded p }

def FileTreeState.collapse (st : FileTreeState) (p : List String) : FileTreeState :=
  { st with expanded_paths := st.expanded_paths.collapse p }

def FileTreeState.expand (st : FileTreeState) (p : List String) : FileTreeState :=
  { st with expanded_paths := st.expanded_paths.expand p }

def FileTreeState.extend_expanded_paths (st : FileTreeState) (e : ExpandedPaths) :
    FileTreeState :=
  { st with expanded_paths := st.expanded_paths.extendP e }

/-- `Path::ancestors().skip(1)`: the proper prefixes of a component list,
longest first, ending with the root `[]`. -/
def properAncestors (p : List String) : List (List String) :=
  ((List.range (p.length + 1)).reverse.map (fun k => p.take k)).tail

/-- `FileTreeState::expand_to_path`: walk the proper ancestors outward,
marking each expanded, stopping at the first one outside the root. -/
def FileTreeState.expand_to_path (st : FileTreeState) (p : List String) : FileTreeState :=
  ((properAncestors p).takeWhile
      (fun anc => st.root_entry.path.isPrefixOf anc)).foldl
    (fun s anc => s.expand anc) st

/-- `FileTreeState::update`: remember the selected line's path, rescan the
tree, rebuild the flattened list, re-select the remembered path. -/
def FileTreeState.update (fs : Fs) (cfg : Config) (fuel : Nat)
    (st : FileTreeState) : FileTreeState :=
  let selected := st.line.map (fun ln => ln.path)
  let root := TreeEntry.update fs st.expanded_paths fuel st.root_entry
  let st2 := { st with
    root_entry := root
    lines := TreeEntry.build_lines_rec cfg root 0 }
  match selected with
  | some p => st2.select_path p
  | none => st2

/-- `FileTreeState::change_root`. -/
def FileTreeState.change_root (fs : Fs) (cfg : Config) (fuel : Nat)
    (st : FileTreeState) (path : List String) : FileTreeState :=
  let root := TreeEntry.new fs path
  let root2 := TreeEntry.mk root.path root.is_dir root.is_link root.children true
  let st2 := { st with root_entry := root2 }
  st2.update fs cfg fuel

/-- `FileTreeState::entry`: resolve the selected line back to its entry;
the root when nothing is selected or the path is not found. -/
def FileTreeState.entry (st : FileTreeState) : TreeEntry :=
  match st.line with
  | some ln => (st.root_entry.find ln).getD st.root_entry
  | none => st.root_entry

/-- `FileTreeState::current_dir`: the selected entry itself when it is a
directory, else its parent, else `/` (the empty component list). -/
def FileTreeState.current_dir (st : FileTreeState) : List String :=
  let sel := st.entry
  if sel.is_dir then sel.path
  else
    match sel.path with
    | [] => ([] : List String)
    | _ => sel.path.dropLast

/-- The loop of `select_up`: from index `i + 1`, `select_prev` in steps;
stop at index 0, when the line at the new index is missing (the `?` in the
source aborts with the selection already moved), or when its level drops
below the starting level. -/
def selUpLoop (lines : List TreeEntryLine) (level : Nat) : Nat → Nat
  | 0 => 0
  | i + 1 =>
    match lines.get? i with
    | none => i
    | some ln => if ln.level < level then i else selUpLoop lines level i

/-- `FileTreeState::select_up`: scan backward to the nearest line whose
level is strictly smaller than the starting line's, or to index 0. -/
def FileTreeState.select_up (st : FileTreeState) : FileTreeState :=
  match st.selected with
  | none => st
  | some i =>
    match st.lines.get? i with
    | none => st
    | some ln => { st with selected := some (selUpLoop st.lines ln.level i) }

/-- One user-visible operation on a `FileTreeState`; used to quantify over
every reachable synchronized state. -/
inductive TreeOp where
  | expand (p : List String)
  | collapse (p : List String)
  | toggle (p : List String)
  | update (fuel : Nat)
  | select_next
  | select_prev
  | select_nth (n : Nat)
  | select_up
  | select_path (p : List String)
  | expand_to_path (p : List String)

def applyOp (fs : Fs) (cfg : Config) (st : FileTreeState) : TreeOp → FileTreeState
  | .expand p => st.expand p
  | .collapse p => st.collapse p
  | .toggle p => st.toggle_expanded p
  | .update fuel => st.update fs cfg fuel
  | .select_next => st.select_next
  | .select_prev => st.select_prev
  | .select_nth n => st.select_nth n
  | .select_up => st.select_up
  | .select_path p => st.select_path p
  | .expand_to_path p => st.expand_to_path p

def runOps (fs : Fs) (cfg : Config) (st : FileTreeState) (ops : List TreeOp) :
    FileTreeState :=
  ops.foldl (applyOp fs cfg) st

/-! ### Prompt protocol and status line (`prompt.rs`, prompt impls from
`app.rs`).  The open-ended `Box<dyn Prompt>` is closed: exactly six
implementations of the `Prompt` trait exist, all in `app.rs`. -/

/-- The six `Prompt` implementations. -/
inductive PromptKind where
  | ShellPrompt
  | CmdPrompt
  | RenamePrompt (old_name : String)
  | NewFilePrompt
  | NewDirPrompt
  | DeletePrompt
deriving DecidableEq, Repr

/-- `Prompt::prompt_text`, the label and history key of each prompt. -/
def PromptKind.prompt_text : PromptKind → String
  | .ShellPrompt => "!"
  | .CmdPrompt => ":"
  | .RenamePrompt _ => "Rename>"
  | .NewFilePrompt => "mk>"
  | .NewDirPrompt => "New dir>"
  | .DeletePrompt => "delete? [y/N]>"

/-- `Prompt::on_submit` of each implementation. -/
def PromptKind.on_submit : PromptKind → String → Option Command
  | .ShellPrompt, text => some (.Shell text)
  | .CmdPrompt, text => some (.CmdStr text)
  | .RenamePrompt _, input => some (.Rename (some input))
  | .NewFilePrompt, input => some (.NewFile (some input))
  | .NewDirPrompt, input => some (.NewDir (some input))
  | .DeletePrompt, input =>
    if input = "y" ∨ input = "Y" then some (.Delete false) else none

/-- `Prompt::on_cancel`: every implementation keeps the default `None`. -/
def PromptKind.on_cancel : PromptKind → Option Command :=
  fun _ => none

/-- `Prompt::init_text`: empty except for the rename prompt. -/
def PromptKind.init_text : PromptKind → String
  | .RenamePrompt old => old
  | _ => ""

/-- Modelled from the spec: the single-line buffer edit performed by the
external `tui_textarea` editor for a forwarded key (out of scope for the
sources; only the fact that it edits the buffer matters here). -/
def textInput (buf : String) (k : KeyPress) : String :=
  match k.code with
  | .Char c => buf.push c
  | .Backspace => buf.dropRight 1
  | _ => buf

/-- `PromptState` from `prompt.rs`: the live prompt, its single-line
buffer, the history (slot 0 is the live edit slot) and the history
cursor. -/
structure PromptState where
  prompt : PromptKind
  textarea : String
  history : List String
  hist_index : Nat
deriving DecidableEq, Repr

/-- `PromptState::new`: push an empty live slot in front of the stored
history, pre-fill the buffer with `init_text`. -/
def PromptState.new (prompt : PromptKind) (history : List String) : PromptState :=
  { prompt := prompt
    textarea := prompt.init_text
    history := "" :: history
    hist_index := 0 }

/-- `PromptState::walk_history`: saturating add, clamp into the history
range, load that entry into the buffer. -/
def PromptState.walk_history (st : PromptState) (i : Int) : PromptState :=
  let ix := min (Int.toNat ((st.hist_index : Int) + i)) (st.history.length - 1)
  { st with hist_index := ix, textarea := st.history.getD ix "" }

/-- `PromptState::submit`: run the submit transform on the buffer, store
the buffer into history slot 0, reset the buffer. -/
def PromptState.submit (st : PromptState) : PromptState × Option Command :=
  let cmd := st.prompt.on_submit st.textarea
  ({ st with history := st.history.set 0 st.textarea, textarea := "" }, cmd)

/-- `PromptState::cancel`: run the cancel transform, drop the live slot. -/
def PromptState.cancel (st : PromptState) : PromptState × Option Command :=
  ({ st with history := st.history.drop 1, textarea := "" }, st.prompt.on_cancel)

/-- `PromptState::on_key`; the `Bool` is "the prompt should be exited". -/
def PromptState.on_key (st : PromptState) (k : KeyPress) :
    PromptState × Bool × Option Command :=
  match k.code with
  | .Char '\n' =>
    let r := st.submit
    (r.1, true, r.2)
  | .Up => (st.walk_history 1, false, none)
  | .Down => (st.walk_history (-1), false, none)
  | .Esc =>
    let r := st.cancel
    (r.1, true, r.2)
  | _ =>
    let buf := textInput st.textarea k
    ({ st with textarea := buf, history := st.history.set 0 buf }, false, none)

/-- Helper for `rustDedup`. -/
def dedupTail (prev : String) : List String → List String
  | [] => []
  | b :: t => if prev = b then dedupTail prev t else b :: dedupTail b t

/-- `Vec::dedup`: remove consecutive repeated elements, keeping the first
of each run. -/
def rustDedup : List String → List String
  | [] => []
  | a :: t => a :: dedupTail a t

/-- Association-list operations embedding the `HashMap<String, Vec<String>>`
of prompt histories (only keyed lookup/remove/insert are observed). -/
def histLookup (hs : List (String × List String)) (k : String) : Option (List String) :=
  (hs.find? (fun e => e.1 == k)).map (fun e => e.2)

def histErase (hs : List (String × List String)) (k : String) :
    List (String × List String) :=
  hs.filter (fun e => e.1 != k)

def histInsert (hs : List (String × List String)) (k : String) (v : List String) :
    List (String × List String) :=
  (k, v) :: histErase hs k

/-- `StatusLine` from `prompt.rs`; `info` is the `InfoBox` message (its
`info`/`error` setters both just store the text). -/
structure StatusLine where
  histories : List (String × List String)
  prompt_state : Option PromptState
  info : String
deriving DecidableEq, Repr

def StatusLine.new : StatusLine :=
  { histories := [], prompt_state := none, info := "" }

/-- `StatusLine::has_focus`. -/
def StatusLine.has_focus (sl : StatusLine) : Bool :=
  sl.prompt_state.isSome

/-- `StatusLine::on_key`: forward to the prompt; on exit, dedup the
prompt's history and store it under the prompt's label.  The `Bool` is
"the tree should be updated". -/
def StatusLine.on_key (sl : StatusLine) (k : KeyPress) :
    StatusLine × Bool × Option Command :=
  match sl.prompt_state with
  | some p =>
    let r := p.on_key k
    if r.2.1 then
      ({ sl with
          prompt_state := none
          histories := histInsert sl.histories r.1.prompt.prompt_text (rustDedup r.1.history) },
        true, r.2.2)
    else
      ({ sl with prompt_state := some r.1 }, false, r.2.2)
  | none => (sl, false, none)

/-- `StatusLine::prompt`: clear the info message, move the stored history
for this prompt kind (if any) into a fresh `PromptState`. -/
def StatusLine.prompt (sl : StatusLine) (pk : PromptKind) : StatusLine :=
  let hist := (histLookup sl.histories pk.prompt_text).getD []
  { histories := histErase sl.histories pk.prompt_text
    prompt_state := some (PromptState.new pk hist)
    info := "" }

/-- `StatusLine::cancel_prompt` (note: unlike the exit path of `on_key`,
this drops the prompt's history instead of storing it). -/
def StatusLine.cancel_prompt (sl : StatusLine) : StatusLine × Option Command :=
  match sl.prompt_state with
  | some p =>
    let r := p.cancel
    ({ sl with prompt_state := none }, r.2)
  | none => (sl, none)

/-! ### The controller (`app.rs`): `App`, `run_command`, `run_shell`,
`on_key`.

External mutations (process spawns and filesystem writes) are modelled as an
explicit `Effect` list; the spawned process's exit status, and hence the
status-line message `run_shell` would derive from it, belong to the external
collaborator and are not modelled.  `parse_cmds` lives in `commands.rs`,
which is not among the sources, so the re-entrant `CmdStr` execution is an
opaque `reenterCmdStr` effect.  Dispatch decisions of `on_key` are recorded
as `DispatchEvent`s. -/

/-- An externally visible side effect of executing a command. -/
inductive Effect where
  | shellOut (script : String) (arg root entry dir : List String)
  | reenterCmdStr (cmd : String)
  | setCurrentDir (p : List String)
  | fsRename (src dst : List String)
  | fsCreateDirAll (p : List String)
  | fsWriteFile (p : List String)
  | fsRemoveDirAll (p : List String)
  | fsRemoveFile (p : List String)
deriving DecidableEq, Repr

/-- Which built-in navigation arm of the `match` in `App::on_key` fired. -/
inductive BuiltinKey where
  | quitB | nextB | prevB | openTogB | cdB | expandB | collapseB
  | shellPromptB | cmdPromptB | toggleHiddenB
deriving DecidableEq, Repr

/-- A dispatch decision taken by `App::on_key`. -/
inductive DispatchEvent where
  | promptKey (k : KeyPress)
  | promptCommand (c : Command)
  | mappedCommand (c : Command)
  | builtin (b : BuiltinKey)
deriving DecidableEq, Repr

/-- `KeyMap` (a `HashMap<KeyPress, Command>`, embedded as an overwrite-on-
insert association list). -/
def KeyMap.add_mapping (km : List (KeyPress × Command)) (k : KeyPress) (c : Command) :
    List (KeyPress × Command) :=
  (k, c) :: km.filter (fun e => e.1 != k)

def KeyMap.get_mapping (km : List (KeyPress × Command)) (k : KeyPress) :
    Option Command :=
  (km.find? (fun e => e.1 == k)).map (fun e => e.2)

/-- `App`: the controller state (rendering-only fields omitted). -/
structure App where
  config : Config
  tree : FileTreeState
  exit : Bool
  statusline : StatusLine
  keymap : List (KeyPress × Command)

/-- `App::run_shell`: invoke `sh -c <cmd> -- <selected entry>` with the
three path environment variables. -/
def App.run_shell (app : App) (cmd : String) : Effect :=
  .shellOut cmd app.tree.entry.path app.tree.root_entry.path app.tree.entry.path
    app.tree.current_dir

/-- `App::run_command`.  Each arm mirrors the source `match`; the final
`self.update()` resynchronizes the tree with the possibly-updated config. -/
def App.run_command (fs : Fs) (fuel : Nat) (app : App) (cmd : Command) :
    App × List Effect :=
  let r : App × List Effect :=
    match cmd with
    | .Quit => ({ app with exit := true }, [])
    | .Shell cmd => (app, [app.run_shell cmd])
    | .Open path =>
      -- The source computes the target path (`path.unwrap_or(selected)`)
      -- into the binding `_path`, which is never used: `run_shell` always
      -- receives the *selected* entry's path as the positional argument.
      let cmd := app.config.open_cmd
      let _path := (path.getD app.tree.entry.path)
      let eff := app.run_shell cmd
      if app.config.quit_on_open then ({ app with exit := true }, [eff])
      else (app, [eff])
    | .CmdStr cmd => (app, [.reenterCmdStr cmd])
    | .Set opt val =>
      match app.config.set_opt opt val with
      | .ok cfg => ({ app with config := cfg }, [])
      | .error e => ({ app with statusline := { app.statusline with info := e } }, [])
    | .Echo msg => ({ app with statusline := { app.statusline with info := msg } }, [])
    | .Cd path =>
      let target := path.getD app.tree.entry.path
      -- `std::env::set_current_dir` succeeds on a traversable directory
      -- (permission failures are not modelled); on success the tree is
      -- re-rooted at the new working directory.
      if fs.isDir target then
        ({ app with tree := app.tree.change_root fs app.config fuel target },
          [.setCurrentDir target])
      else
        ({ app with statusline := { app.statusline with info := "io error" } }, [])
    | .MapKey key cmd => ({ app with keymap := KeyMap.add_mapping app.keymap key cmd }, [])
    | .Rename name =>
      match name with
      | some name =>
        let src := app.tree.entry.path
        let dst := src.dropLast ++ [name]   -- `PathBuf::set_file_name`
        if !(fs.pathExists dst) then (app, [.fsRename src dst])
        else (app, [])
      | none =>
        let old := (app.tree.entry.path.getLast?).getD ""
        ({ app with statusline := app.statusline.prompt (.RenamePrompt old) }, [])
    | .NewFile name =>
      match name with
      | some name =>
        let path := app.tree.current_dir ++ [name]
        if !(fs.pathExists path) then
          if endsWithSlash name then (app, [.fsCreateDirAll path])
          else (app, [.fsWriteFile path])
        else (app, [])
      | none => ({ app with statusline := app.statusline.prompt .NewFilePrompt }, [])
    | .NewDir name =>
      match name with
      | some name =>
        let path := app.tree.current_dir ++ [name]
        if !(fs.pathExists path) then (app, [.fsCreateDirAll path])
        else (app, [])
      | none => ({ app with statusline := app.statusline.prompt .NewDirPrompt }, [])
    | .Delete prompt =>
      if !prompt then
        let path := app.tree.entry.path
        if fs.isDir path then (app, [.fsRemoveDirAll path])
        else (app, [.fsRemoveFile path])
      else ({ app with statusline := app.statusline.prompt .DeletePrompt }, [])
  ({ r.1 with tree := r.1.tree.update fs r.1.config fuel }, r.2)

/-- The built-in navigation `match` at the end of `App::on_key`, in source
order ('q'; 'j'/Down; 'k'/Up; '\n'; 'l' without alt; 'l'/Right; 'h'/Left;
'!'; ':'; '.'; catch-all). -/
def App.builtinStep (fs : Fs) (fuel : Nat) (app : App) (k : KeyPress) :
    App × List Effect × List DispatchEvent :=
  match k.code with
  | .Char c =>
    if c = 'q' then ({ app with exit := true }, [], [.builtin .quitB])
    else if c = 'j' then ({ app with tree := app.tree.select_next }, [], [.builtin .nextB])
    else if c = 'k' then ({ app with tree := app.tree.select_prev }, [], [.builtin .prevB])
    else if c = '\n' then
      let entry := app.tree.entry
      if entry.is_dir then
        ({ app with tree := app.tree.toggle_expanded entry.path }, [], [.builtin .openTogB])
      else
        let r := App.run_command fs fuel app (.Open none)
        (r.1, r.2, [.builtin .openTogB])
    else if c = 'l' && !k.has_alt then
      let r := App.run_command fs fuel app (.Cd none)
      (r.1, r.2, [.builtin .cdB])
    else if c = 'l' then
      -- reachable only with alt held (the Right arrow shares this arm)
      let entry := app.tree.entry
      if entry.is_dir then
        if !entry.is_expanded then
          ({ app with tree := app.tree.expand entry.path }, [], [.builtin .expandB])
        else
          ({ app with tree := app.tree.select_next }, [], [.builtin .expandB])
      else (app, [], [.builtin .expandB])
    else if c = 'h' then
      let entry := app.tree.entry
      if entry.is_expanded then
        ({ app with tree := app.tree.collapse entry.path }, [], [.builtin .collapseB])
      else
        ({ app with tree := app.tree.select_up }, [], [.builtin .collapseB])
    else if c = '!' then
      ({ app with statusline := app.statusline.prompt .ShellPrompt }, [],
        [.builtin .shellPromptB])
    else if c = ':' then
      ({ app with statusline := app.statusline.prompt .CmdPrompt }, [],
        [.builtin .cmdPromptB])
    else if c = '.' then
      ({ app with config := { app.config with show_hidden := !app.config.show_hidden } },
        [], [.builtin .toggleHiddenB])
    else (app, [], [])
  | .Down => ({ app with tree := app.tree.select_next }, [], [.builtin .nextB])
  | .Up => ({ app with tree := app.tree.select_prev }, [], [.builtin .prevB])
  | .Right =>
    let entry := app.tree.entry
    if entry.is_dir then
      if !entry.is_expanded then
        ({ app with tree := app.tree.expand entry.path }, [], [.builtin .expandB])
      else
        ({ app with tree := app.tree.select_next }, [], [.builtin .expandB])
    else (app, [], [.builtin .expandB])
  | .Left =>
    let entry := app.tree.entry
    if entry.is_expanded then
      ({ app with tree := app.tree.collapse entry.path }, [], [.builtin .collapseB])
    else
      ({ app with tree := app.tree.select_up }, [], [.builtin .collapseB])
  | _ => (app, [], [])

/-- `App::on_key`: while the status line has focus every key goes to the
prompt (running a submitted command and updating the tree as requested);
otherwise the user keymap entry for the key — if any — runs, and then the
built-in `match` is evaluated unconditionally on the resulting state. -/
def App.on_key (fs : Fs) (fuel : Nat) (app : App) (k : KeyPress) :
    App × List Effect × List DispatchEvent :=
  if app.statusline.has_focus then
    let r := app.statusline.on_key k
    let app1 := { app with statusline := r.1 }
    let r2 : App × List Effect × List DispatchEvent :=
      match r.2.2 with
      | some c =>
        let rc := App.run_command fs fuel app1 c
        (rc.1, rc.2, [.promptKey k, .promptCommand c])
      | none => (app1, [], [.promptKey k])
    let app3 :=
      if r.2.1 then { r2.1 with tree := r2.1.tree.update fs r2.1.config fuel } else r2.1
    (app3, r2.2.1, r2.2.2)
  else
    let r1 : App × List Effect × List DispatchEvent :=
      match KeyMap.get_mapping app.keymap k with
      | some c =>
        let rc := App.run_command fs fuel app c
        (rc.1, rc.2, [.mappedCommand c])
      | none => (app, [], [])
    let r2 := App.builtinStep fs fuel r1.1 k
    (r2.1, r1.2.1 ++ r2.2.1, r1.2.2 ++ r2.2.2)

/-! ### Predicates and concrete instances used by the claims -/

/-- Path consistency: every child's path extends its parent's by exactly one
component, and sibling paths are distinct.  Holds for every reachable tree
(children are only ever produced by `read_fs` from a directory listing). -/
def PathConsistent (t : TreeEntry) : Prop :=
  ∀ e ∈ t.subEntries,
    (∀ c ∈ e.children, ∃ n, c.path = e.path ++ [n]) ∧
    (e.children.map TreeEntry.path).Nodup

/-- The sibling order established by the two sorts of `read_fs`:
directories strictly before files, and path order within each group. -/
def childOrd (a b : TreeEntry) : Prop :=
  (a.is_dir = true ∧ b.is_dir = false) ∨ (a.is_dir = b.is_dir ∧ pathLeb a.path b.path = true)

/-- Every sibling list of the tree is ordered by `childOrd`. -/
def SiblingsSorted (t : TreeEntry) : Prop :=
  ∀ e ∈ t.subEntries, e.children.Pairwise childOrd

/-- The flags invariant behind claim C1: `is_dir` mirrors the filesystem and
only directories ever hold children. -/
def DirFlagsOk (fs : Fs) (t : TreeEntry) : Prop :=
  ∀ e ∈ t.subEntries,
    e.is_dir = fs.isDir e.path ∧ (e.children ≠ [] → fs.isDir e.path = true)

/-- The number of expanded entries of the tree whose path strictly contains
(is a proper prefix of) `p`: the "expanded ancestors strictly containing"
count of the flattening invariant. -/
def countExpAnc (t : TreeEntry) (p : List String) : Nat :=
  (t.subEntries.filter
    (fun e => e.is_expanded && e.path.isPrefixOf p && !(e.path == p))).length

/-- Characterization (not source): the dispatch events `builtinStep` emits,
as a pure function of the key — used to state that evaluation of the
built-in bindings does not depend on the application state. -/
def builtinEvents (k : KeyPress) : List DispatchEvent :=
  match k.code with
  | .Char c =>
    if c = 'q' then [.builtin .quitB]
    else if c = 'j' then [.builtin .nextB]
    else if c = 'k' then [.builtin .prevB]
    else if c = '\n' then [.builtin .openTogB]
    else if c = 'l' && !k.has_alt then [.builtin .cdB]
    else if c = 'l' then [.builtin .expandB]
    else if c = 'h' then [.builtin .collapseB]
    else if c = '!' then [.builtin .shellPromptB]
    else if c = ':' then [.builtin .cmdPromptB]
    else if c = '.' then [.builtin .toggleHiddenB]
    else []
  | .Down => [.builtin .nextB]
  | .Up => [.builtin .prevB]
  | .Right => [.builtin .expandB]
  | .Left => [.builtin .collapseB]
  | _ => []

/-- The Enter key as the program matches it (`KeyCode::Char('\n')`). -/
def enterPress : KeyPress := ⟨.Char '\n', KeyModifiers.NONE⟩

/-- One modal prompt session that ends with the buffer holding `t`: open the
prompt for `pk`, edit (every non-Enter/Escape key rewrites only the live
buffer and history slot 0 — proved as part of the history claim), press
Enter. -/
def sessionOutcome (sl : StatusLine) (pk : PromptKind) (t : String) : StatusLine :=
  let sl1 := sl.prompt pk
  match sl1.prompt_state with
  | some ps =>
    (StatusLine.on_key { sl1 with prompt_state := some { ps with textarea := t } }
      enterPress).1
  | none => sl1

/-- A small concrete filesystem: the directory `/r` holds the directory
`/r/a` and the file `/r/f`; `/r/a` holds the file `/r/a/b`; everything else
fails to list. -/
def fsEx : Fs :=
  { readDir := fun p =>
      if p = ["r"] then some ["a", "f"]
      else if p = ["r", "a"] then some ["b"]
      else none
    isDir := fun p => p = ["r"] || p = ["r", "a"]
    isLink := fun _ => false
    pathExists := fun p =>
      p = ["r"] || p = ["r", "a"] || p = ["r", "f"] || p = ["r", "a", "b"] }

/-- The synchronized example state on `fsEx`, rooted at `/r`. -/
def stEx : FileTreeState :=
  (FileTreeState.new fsEx ["r"]).update fsEx Config.default 5

/-- The example app for the command-level claims. -/
def appEx : App :=
  { config := Config.default
    tree := stEx
    exit := false
    statusline := StatusLine.new
    keymap := [] }

/-- The operation sequence of the C1 counterexample: expand `/r/a`, rescan,
collapse it again, rescan. -/
def opsC1 : List TreeOp :=
  [.expand ["r", "a"], .update 5, .collapse ["r", "a"], .update 5]

/-- The entry for `/r/a` after `opsC1`: a collapsed directory that kept the
child read while it was expanded. -/
def eA : TreeEntry :=
  .mk ["r", "a"] true false [.mk ["r", "a", "b"] false false [] false] false

/-! ### Supporting lemmas -/

theorem lawful_charCmp : IsLawfulCmp charCmp := by
  refine ⟨fun a => ?_, fun a b h => ?_, fun a b => ?_, fun a b c h1 h2 => ?_⟩
  · simp [charCmp]
  · by_cases hab : a < b <;> by_cases hba : b < a <;>
      simp [charCmp, hab, hba] at h ⊢
    exact le_antisymm (le_of_not_lt hba) (le_of_not_lt hab)
  · by_cases hab : a < b <;> by_cases hba : b < a <;>
      simp [charCmp, hab, hba]
    exact absurd (hab.trans hba) (lt_irrefl a)
  · by_cases hab : a < b <;> simp [charCmp, hab] at h1
    by_cases hbc : b < c <;> simp [charCmp, hbc] at h2
    simp [charCmp, hab.trans hbc]

theorem lawful_listCmp {cmp : α → α → Ordering} (h : IsLawfulCmp cmp) :
    IsLawfulCmp (listCmp cmp) := by
  obtain ⟨hrefl, heq, hswap, htrans⟩ := h
  have heqsym : ∀ a b, cmp a b = .eq → cmp b a = .eq := by
    intro a b hab; rw [heq _ _ hab]; exact hrefl b
  refine ⟨?_, ?_, ?_, ?_⟩
  · intro a
    induction a with
    | nil => rfl
    | cons x xs ih => simp [listCmp, hrefl, ih]
  · intro a
    induction a with
    | nil => intro b hb; cases b <;> simp_all [listCmp]
    | cons x xs ih =>
      intro b hb
      cases b with
      | nil => simp [listCmp] at hb
      | cons y ys =>
        simp only [listCmp] at hb
        cases hxy : cmp x y <;> rw [hxy] at hb
        · exact absurd hb (by simp)
        · rw [heq _ _ hxy, ih ys hb]
        · exact absurd hb (by simp)
  · intro a
    induction a with
    | nil => intro b; cases b <;> simp [listCmp]
    | cons x xs ih =>
      intro b
      cases b with
      | nil => simp [listCmp]
      | cons y ys =>
        simp only [listCmp]
        cases hxy : cmp x y
        · have hyx : cmp y x = .gt := (hswap x y).mp hxy
          simp [hyx]
        · have hyx : cmp y x = .eq := heqsym _ _ hxy
          simp [hyx, ih ys]
        · have hyx : cmp y x = .lt := (hswap y x).mpr hxy
          simp [hyx]
  · intro a
    induction a with
    | nil =>
      intro b c h1 h2
      cases b <;> cases c <;> simp_all [listCmp]
    | cons x xs ih =>
      intro b c h1 h2
      cases b with
      | nil => simp [listCmp] at h1
      | cons y ys =>
        cases c with
        | nil => simp [listCmp] at h2
        | cons z zs =>
          simp only [listCmp] at h1 h2 ⊢
          cases hxy : cmp x y <;> rw [hxy] at h1
          · -- cmp x y = .lt
            cases hyz : cmp y z <;> rw [hyz] at h2
            · rw [htrans _ _ _ hxy hyz]
            · rw [← heq _ _ hyz, hxy]
            · exact absurd h2 (by simp)
          · -- cmp x y = .eq
            cases hyz : cmp y z <;> rw [hyz] at h2
            · rw [heq _ _ hxy, hyz]
            · rw [heq _ _ hxy, hyz, ih ys zs h1 h2]
            · exact absurd h2 (by simp)
          · exact absurd h1 (by simp)

theorem lawful_strCmp : IsLawfulCmp strCmp := by
  have h := lawful_listCmp lawful_charCmp
  refine ⟨fun a => h.1 a.data, fun a b hab => ?_, fun a b => h.2.2.1 a.data b.data,
    fun a b c => h.2.2.2 a.data b.data c.data⟩
  have := h.2.1 a.data b.data hab
  cases a; cases b; exact congrArg String.mk this

theorem lawful_pathCmp : IsLawfulCmp pathCmp :=
  lawful_listCmp lawful_strCmp

theorem pathLeb_total (a b : List String) : pathLeb a b || pathLeb b a := by
  cases h : pathCmp a b
  · simp [pathLeb, h]
  · simp [pathLeb, h]
  · have : pathCmp b a = .lt := (lawful_pathCmp.2.2.1 b a).mpr h
    simp [pathLeb, h, this]

theorem pathLeb_trans (a b c : List String) (h1 : pathLeb a b) (h2 : pathLeb b c) :
    pathLeb a c := by
  unfold pathLeb at h1 h2 ⊢
  cases hab : pathCmp a b <;> rw [hab] at h1
  · -- a < b
    cases hbc : pathCmp b c <;> rw [hbc] at h2
    · simp [lawful_pathCmp.2.2.2 _ _ _ hab hbc]
    · rw [← lawful_pathCmp.2.1 _ _ hbc, hab]
    · exact absurd h2 (by simp)
  · rw [lawful_pathCmp.2.1 _ _ hab, h2]
  · exact absurd h1 (by simp)

theorem insertS_perm (le : α → α → Bool) (x : α) :
    ∀ l : List α, (insertS le x l).Perm (x :: l)
  | [] => List.Perm.refl _
  | y :: t => by
    simp only [insertS]
    split
    · exact ((insertS_perm le x t).cons y).trans (List.Perm.swap x y t)
    · exact List.Perm.refl _

theorem stableSort_perm (le : α → α → Bool) (l : List α) :
    (stableSort le l).Perm l := by
  suffices h : ∀ (l acc : List α),
      (l.foldl (fun acc x => insertS le x acc) acc).Perm (acc ++ l) by
    simpa using h l []
  intro l
  induction l with
  | nil => simp
  | cons x t ih =>
    intro acc
    simp only [List.foldl_cons]
    refine (ih (insertS le x acc)).trans ?_
    have h1 : (insertS le x acc ++ t).Perm ((x :: acc) ++ t) :=
      (insertS_perm le x acc).append_right t
    refine h1.trans ?_
    simpa using (@List.perm_middle _ x acc t).symm

theorem mem_insertS {le : α → α → Bool} {x b : α} {l : List α} :
    b ∈ insertS le x l ↔ b = x ∨ b ∈ l :=
  ⟨fun h => ((insertS_perm le x l).mem_iff).mp h |> fun h => by
      simpa using h,
   fun h => ((insertS_perm le x l).mem_iff).mpr (by simpa using h)⟩

theorem insertS_pairwise {le : α → α → Bool} {P : α → α → Prop}
    (htrans : ∀ a b c, le a b → le b c → le a c)
    (htotal : ∀ a b, le a b || le b a)
    {x : α} :
    ∀ {l : List α},
      l.Pairwise (fun a b => le a b = true ∧ (le b a = true → P a b)) →
      (∀ a ∈ l, P a x) →
      (insertS le x l).Pairwise (fun a b => le a b = true ∧ (le b a = true → P a b))
  | [], _, _ => by simp [insertS]
  | y :: t, hl, hx => by
    simp only [insertS]
    split
    · rename_i hyx
      refine List.Pairwise.cons ?_ (insertS_pairwise htrans htotal hl.tail
        (fun a ha => hx a (List.mem_cons_of_mem y ha)))
      intro b hb
      rcases mem_insertS.mp hb with rfl | hbt
      · exact ⟨hyx, fun _ => hx y (List.mem_cons_self y t)⟩
      · exact List.rel_of_pairwise_cons hl hbt
    · rename_i hyx
      have hxy : le x y := by
        have := htotal y x
        simp [hyx] at this
        exact this
      refine List.Pairwise.cons ?_ hl
      intro b hb
      rcases List.mem_cons.mp hb with rfl | hbt
      · exact ⟨hxy, fun hba => absurd hba (by simp [hyx])⟩
      · have hyb := List.rel_of_pairwise_cons hl hbt
        refine ⟨htrans _ _ _ hxy hyb.1, fun hbx => ?_⟩
        exact absurd (htrans _ _ _ hyb.1 hbx) (by simp [hyx])

theorem stableSort_pairwise {le : α → α → Bool} {P : α → α → Prop}
    (htrans : ∀ a b c, le a b → le b c → le a c)
    (htotal : ∀ a b, le a b || le b a)
    {l : List α} (hl : l.Pairwise P) :
    (stableSort le l).Pairwise (fun a b => le a b = true ∧ (le b a = true → P a b)) := by
  suffices h : ∀ (l acc : List α), l.Pairwise P →
      acc.Pairwise (fun a b => le a b = true ∧ (le b a = true → P a b)) →
      (∀ a ∈ acc, ∀ x ∈ l, P a x) →
      (l.foldl (fun acc x => insertS le x acc) acc).Pairwise
        (fun a b => le a b = true ∧ (le b a = true → P a b)) by
    exact h l [] hl (by simp) (by simp)
  intro l
  induction l with
  | nil => intro acc _ hacc _; simpa using hacc
  | cons x t ih =>
    intro acc hl hacc hcross
    simp only [List.foldl_cons]
    refine ih (insertS le x acc) hl.tail
      (insertS_pairwise htrans htotal hacc (fun a ha => hcross a ha x (List.mem_cons_self x t)))
      ?_
    intro a ha z hz
    rcases mem_insertS.mp ha with rfl | haacc
    · exact List.rel_of_pairwise_cons hl hz
    · exact hcross a haacc z (List.mem_cons_of_mem x hz)

/-- The loop of `select_up` never moves past 0 and stops either at 0 or on
a line of strictly smaller level. -/
theorem selUpLoop_spec (lines : List TreeEntryLine) (level : Nat) :
    ∀ i, i ≤ lines.length →
      selUpLoop lines level i ≤ i ∧
      (selUpLoop lines level i = 0 ∨
        ∃ ln2, lines.get? (selUpLoop lines level i) = some ln2 ∧ ln2.level < level) := by
  intro i
  induction i with
  | zero => intro _; exact ⟨Nat.le_refl 0, Or.inl rfl⟩
  | succ i ih =>
    intro h
    have hi : i < lines.length := h
    have hln2 : ∃ ln2, lines.get? i = some ln2 := by
      rw [List.get?_eq_getElem?]
      exact ⟨lines[i], List.getElem?_eq_getElem hi⟩
    obtain ⟨ln2, hln2⟩ := hln2
    simp only [selUpLoop, hln2]
    split
    · exact ⟨Nat.le_succ i, Or.inr ⟨ln2, hln2, by assumption⟩⟩
    · have := ih (Nat.le_of_lt hi)
      exact ⟨this.1.trans (Nat.le_succ i), this.2⟩

theorem dedupTail_idem (prev : String) :
    ∀ l, dedupTail prev (dedupTail prev l) = dedupTail prev l := by
  intro l
  induction l generalizing prev with
  | nil => rfl
  | cons b t ih =>
    by_cases h : prev = b
    · simp [dedupTail, h, ih]
    · simp [dedupTail, h, ih]

/-- Re-submitting the head of an already deduplicated history is absorbed. -/
theorem rustDedup_head_absorb (t : String) (h : List String) :
    rustDedup (t :: rustDedup (t :: h)) = rustDedup (t :: h) := by
  simp [rustDedup, dedupTail, dedupTail_idem]

theorem histLookup_insert (hs : List (String × List String)) (k : String)
    (v : List String) : histLookup (histInsert hs k v) k = some v := by
  simp [histLookup, histInsert, List.find?]

/-- The stored history of one full prompt session: the submitted buffer is
pushed onto the previously stored history and the result deduplicated. -/
theorem sessionOutcome_lookup (sl : StatusLine) (pk : PromptKind) (t : String) :
    histLookup (sessionOutcome sl pk t).histories pk.prompt_text =
      some (rustDedup (t :: (histLookup sl.histories pk.prompt_text).getD [])) := by
  simp [sessionOutcome, StatusLine.prompt, StatusLine.on_key, PromptState.on_key,
    enterPress, PromptState.submit, PromptState.new, histLookup_insert]

theorem takeWhile_all {α} {p : α → Bool} :
    ∀ {l : List α}, (∀ c ∈ l, p c = true) →
      l.takeWhile p = l ∧ l.dropWhile p = []
  | [], _ => ⟨rfl, rfl⟩
  | a :: t, h => by
    have ha : p a = true := h a (List.mem_cons_self a t)
    have ht := takeWhile_all (fun c hc => h c (List.mem_cons_of_mem a hc))
    simp [List.takeWhile, List.dropWhile, ha, ht.1, ht.2]

theorem takeWhile_append_stop {α} {p : α → Bool} :
    ∀ (l : List α) (x : α) (r : List α), (∀ c ∈ l, p c = true) → p x = false →
      (l ++ x :: r).takeWhile p = l ∧ (l ++ x :: r).dropWhile p = x :: r := by
  intro l
  induction l with
  | nil =>
    intro x r _ hx
    simp [List.takeWhile, List.dropWhile, hx]
  | cons a t ih =>
    intro x r h hx
    have ha : p a = true := h a (List.mem_cons_self a t)
    have ht := ih x r (fun c hc => h c (List.mem_cons_of_mem a hc)) hx
    simp [List.takeWhile, List.dropWhile, ha, ht.1, ht.2]

theorem stripModifier_pair (c : Char) :
    stripModifier [c, '>'] = (KeyModifiers.NONE, [c, '>']) := by
  unfold stripModifier
  split
  · rename_i t heq
    injection heq with h1 h2
    injection h2 with h3
    simp at h3
  · rename_i t heq
    injection heq with h1 h2
    injection h2 with h3
    simp at h3
  · rfl

/-- A word of letters followed by the closing bracket never carries a
modifier prefix (the second character would have to be a dash). -/
theorem stripModifier_alpha_word (l : List Char) (h : ∀ b ∈ l, b.isAlpha = true) :
    stripModifier (l ++ ['>']) = (KeyModifiers.NONE, l ++ ['>']) := by
  unfold stripModifier
  split
  · rename_i t heq
    cases l with
    | nil => simp at heq
    | cons a1 t1 =>
      simp only [List.cons_append] at heq
      injection heq with hh1 hh2
      cases t1 with
      | nil => simp at hh2
      | cons a2 t2 =>
        simp only [List.cons_append] at hh2
        injection hh2 with hh3
        have := h a2 (by simp)
        rw [hh3] at this
        simp at this
  · rename_i t heq
    cases l with
    | nil => simp at heq
    | cons a1 t1 =>
      simp only [List.cons_append] at heq
      injection heq with hh1 hh2
      cases t1 with
      | nil => simp at hh2
      | cons a2 t2 =>
        simp only [List.cons_append] at hh2
        injection hh2 with hh3
        have := h a2 (by simp)
        rw [hh3] at this
        simp at this
  · rfl

theorem charKeyAlias_single (c : Char) (h3 : c.utf8Size = 1) :
    charKeyAlias (String.mk [c]) = some c := by
  unfold charKeyAlias
  split
  all_goals first
  | (rename_i heq
     have hdd := congrArg String.data heq
     simp at hdd)
  | (simp [String.utf8ByteSize, String.utf8ByteSize.go, h3])

/-- A bare one-byte character other than the brackets parses to itself. -/
theorem parse_key_char (c : Char) (h1 : c ≠ '<') (h2 : c ≠ '>')
    (h3 : c.utf8Size = 1) :
    parse_key (String.mk [c]) = some ⟨.Char c, KeyModifiers.NONE⟩ := by
  unfold parse_key
  rw [show (String.mk [c]).data = [c] from rfl]
  split
  · rename_i rest heq
    injection heq with hc
    exact absurd hc h1
  · rename_i heq
    simp at heq
  · have hne : (c != '>') = true := by simpa using h2
    simp [List.takeWhile_cons, List.dropWhile_cons, hne, charKeyAlias_single c h3]

/-- A bracketed one-byte character parses like the bare one. -/
theorem parse_key_bracket_char (c : Char) (h2 : c ≠ '>') (h3 : c.utf8Size = 1) :
    parse_key (String.mk ['<', c, '>']) = some ⟨.Char c, KeyModifiers.NONE⟩ := by
  unfold parse_key
  rw [show (String.mk ['<', c, '>']).data = '<' :: [c, '>'] from rfl]
  split
  · rename_i rest heq
    injection heq with hlt hrest
    subst hrest
    rw [stripModifier_pair]
    have hne : (c != '>') = true := by simpa using h2
    simp [List.takeWhile_cons, List.dropWhile_cons, hne, charKeyAlias_single c h3]
  · rename_i heq
    simp at heq
  · rename_i hno1 hno2
    exact absurd rfl (hno1 [c, '>'])

/-- An all-letter word that is neither a `char_key` alias nor a named key is
rejected, both bracketed and bare. -/
theorem parse_key_word_fail (w : String) (hne : w.data ≠ [])
    (halpha : ∀ c ∈ w.data, c.isAlpha = true)
    (halias : charKeyAlias w = none) (hnamed : namedKeyWord w = none) :
    parse_key (String.mk ('<' :: w.data ++ ['>'])) = none ∧ parse_key w = none := by
  have hn : ∀ c ∈ w.data, (c != '>') = true := by
    intro c hc
    have ha := halpha c hc
    have hcc : c ≠ '>' := by
      intro h
      rw [h] at ha
      simp at ha
    simpa using hcc
  have hgtf : (('>' : Char) != '>') = false := by decide
  have hgtalpha : (('>' : Char).isAlpha) = false := by decide
  have hmkw : String.mk w.data = w := by cases w; rfl
  have hemp : w.data.isEmpty = false := by
    cases hdd : w.data with
    | nil => exact absurd hdd hne
    | cons a t => rfl
  constructor
  · unfold parse_key
    rw [show (String.mk ('<' :: w.data ++ ['>'])).data = '<' :: (w.data ++ ['>']) from rfl]
    split
    · rename_i rest heq
      injection heq with hlt hrest
      subst hrest
      rw [stripModifier_alpha_word w.data halpha]
      have htw := takeWhile_append_stop w.data '>' [] hn hgtf
      have htw2 := takeWhile_append_stop w.data '>' [] (fun c hc => halpha c hc) hgtalpha
      simp only [htw.1, htw.2, htw2.1, htw2.2, hemp, hmkw, halias, hnamed,
        Bool.false_eq_true, if_false]
    · rename_i heq
      simp at heq
    · rename_i hno1 hno2
      exact absurd rfl (hno1 (w.data ++ ['>']))
  · unfold parse_key
    split
    · rename_i rest heq
      have hmem : '<' ∈ w.data := by rw [heq]; exact List.mem_cons_self _ _
      have := halpha '<' hmem
      simp at this
    · rename_i heq
      exact absurd heq hne
    · have htw := takeWhile_all hn
      simp only [htw.1, htw.2, hemp, hmkw, halias, Bool.false_eq_true, if_false]

/-- Structural induction over `TreeEntry` through the nested children
list. -/
theorem TreeEntry.ind_mem (motive : TreeEntry → Prop)
    (h : ∀ p d l cs e, (∀ c ∈ cs, motive c) → motive (.mk p d l cs e)) :
    ∀ t, motive t
  | .mk p d l cs e => h p d l cs e (fun c hc => TreeEntry.ind_mem motive h c)
decreasing_by
  have := List.sizeOf_lt_of_mem hc
  simp only [TreeEntry.mk.sizeOf_spec]
  omega

theorem update_path (fs : Fs) (exp : ExpandedPaths) :
    ∀ (fuel : Nat) (t : TreeEntry), (TreeEntry.update fs exp fuel t).path = t.path
  | 0, _ => rfl
  | fuel + 1, .mk _ _ _ _ _ => rfl

theorem update_is_dir (fs : Fs) (exp : ExpandedPaths) :
    ∀ (fuel : Nat) (t : TreeEntry), (TreeEntry.update fs exp fuel t).is_dir = t.is_dir
  | 0, _ => rfl
  | fuel + 1, .mk _ _ _ _ _ => rfl

theorem map_path_map_update (fs : Fs) (exp : ExpandedPaths) (fuel : Nat) :
    ∀ cs : List TreeEntry,
      (cs.map (TreeEntry.update fs exp fuel)).map TreeEntry.path = cs.map TreeEntry.path := by
  intro cs
  induction cs with
  | nil => rfl
  | cons c t ih => simp [update_path, ih]

/-- The children of an updated entry, by branch. -/
theorem update_children (fs : Fs) (exp : ExpandedPaths) (fuel : Nat)
    (p : List String) (d l : Bool) (cs : List TreeEntry) (e0 : Bool) :
    (TreeEntry.update fs exp (fuel + 1) (.mk p d l cs e0)).children =
      ((if exp.is_expanded p then
          (TreeEntry.read_fs fs (.mk p d l cs (exp.is_expanded p))).children
        else cs).map (TreeEntry.update fs exp fuel)) := by
  cases h : exp.is_expanded p <;>
    simp [TreeEntry.update, TreeEntry.read_fs, TreeEntry.children, h]

theorem read_fs_children (fs : Fs) (p : List String) (d l : Bool)
    (cs : List TreeEntry) (e : Bool) :
    (TreeEntry.read_fs fs (.mk p d l cs e)).children =
      sortChildren (match fs.readDir p with
        | some ns => mergeChildren fs p cs ns
        | none => []) := rfl

theorem removeChild_spec (p : List String) :
    ∀ l : List TreeEntry,
      (∀ x ∈ (removeChild p l).2, x ∈ l) ∧
      (∀ c, (removeChild p l).1 = some c → c ∈ l ∧ c.path = p) := by
  intro l
  induction l with
  | nil => exact ⟨fun x hx => by simp [removeChild] at hx, fun c hc => by simp [removeChild] at hc⟩
  | cons a t ih =>
    by_cases ha : a.path = p
    · refine ⟨fun x hx => ?_, fun c hc => ?_⟩
      · simp only [removeChild, if_pos ha] at hx
        exact List.mem_cons_of_mem a hx
      · simp only [removeChild, if_pos ha, Option.some.injEq] at hc
        exact ⟨hc ▸ List.mem_cons_self a t, hc ▸ ha⟩
    · refine ⟨fun x hx => ?_, fun c hc => ?_⟩
      · simp only [removeChild, if_neg ha] at hx
        rcases List.mem_cons.mp hx with rfl | hx
        · exact List.mem_cons_self x t
        · exact List.mem_cons_of_mem a ((ih.1) x hx)
      · simp only [removeChild, if_neg ha] at hc
        obtain ⟨hmem, hp⟩ := ih.2 c hc
        exact ⟨List.mem_cons_of_mem a hmem, hp⟩

theorem mergeChildren_paths (fs : Fs) (dir : List String) :
    ∀ (ns : List String) (old : List TreeEntry),
      (mergeChildren fs dir old ns).map TreeEntry.path = ns.map (fun n => dir ++ [n]) := by
  intro ns
  induction ns with
  | nil => intro old; rfl
  | cons n t ih =>
    intro old
    simp only [mergeChildren]
    split
    · rename_i c old2 heq
      have := (removeChild_spec (dir ++ [n]) old).2 c
      rw [heq] at this
      have hc := this rfl
      simp [hc.2, ih]
    · simp [TreeEntry.new, TreeEntry.path, ih]

theorem mergeChildren_mem (fs : Fs) (dir : List String) :
    ∀ (ns : List String) (old : List TreeEntry) (c : TreeEntry),
      c ∈ mergeChildren fs dir old ns →
      c ∈ old ∨ ∃ n ∈ ns, c = TreeEntry.new fs (dir ++ [n]) := by
  intro ns
  induction ns with
  | nil => intro old c hc; simp [mergeChildren] at hc
  | cons n t ih =>
    intro old c hc
    simp only [mergeChildren] at hc
    revert hc
    split
    · rename_i c2 old2 heq
      intro hc
      rcases List.mem_cons.mp hc with rfl | hc
      · have := (removeChild_spec (dir ++ [n]) old).2 c
        rw [heq] at this
        exact Or.inl (this rfl).1
      · rcases ih old2 c hc with h | ⟨m, hm, he⟩
        · have hsub := (removeChild_spec (dir ++ [n]) old).1
          rw [heq] at hsub
          exact Or.inl (hsub c h)
        · exact Or.inr ⟨m, List.mem_cons_of_mem n hm, he⟩
    · intro hc
      rcases List.mem_cons.mp hc with rfl | hc
      · exact Or.inr ⟨n, List.mem_cons_self n t, rfl⟩
      · rcases ih old c hc with h | ⟨m, hm, he⟩
        · exact Or.inl h
        · exact Or.inr ⟨m, List.mem_cons_of_mem n hm, he⟩

theorem sortChildren_perm (cs : List TreeEntry) : (sortChildren cs).Perm cs :=
  (stableSort_perm dirLeb (stableSort entryPathLeb cs)).trans
    (stableSort_perm entryPathLeb cs)

theorem entryPathLeb_trans (a b c : TreeEntry) (h1 : entryPathLeb a b)
    (h2 : entryPathLeb b c) : entryPathLeb a c :=
  pathLeb_trans _ _ _ h1 h2

theorem entryPathLeb_total (a b : TreeEntry) : entryPathLeb a b || entryPathLeb b a :=
  pathLeb_total _ _

theorem dirLeb_trans (a b c : TreeEntry) (h1 : dirLeb a b) (h2 : dirLeb b c) :
    dirLeb a c := by
  unfold dirLeb at h1 h2 ⊢
  cases ha : a.is_dir <;> cases hb : b.is_dir <;> cases hc : c.is_dir <;>
    simp_all

theorem dirLeb_total (a b : TreeEntry) : dirLeb a b || dirLeb b a := by
  unfold dirLeb
  cases ha : a.is_dir <;> cases hb : b.is_dir <;> simp_all

theorem pairwise_trivial (cs : List TreeEntry) : cs.Pairwise (fun _ _ => True) := by
  induction cs with
  | nil => exact List.Pairwise.nil
  | cons a t ih => exact List.Pairwise.cons (fun b _ => trivial) ih

/-- Any children list comes out of the two `read_fs` sorts ordered
directories-first and by path within each group. -/
theorem sortChildren_pairwise (cs : List TreeEntry) :
    (sortChildren cs).Pairwise childOrd := by
  have h1 := @stableSort_pairwise _ entryPathLeb (fun _ _ => True)
    entryPathLeb_trans entryPathLeb_total cs (pairwise_trivial cs)
  have h1' : (stableSort entryPathLeb cs).Pairwise (fun a b => entryPathLeb a b = true) :=
    List.Pairwise.imp (fun hab => hab.1) h1
  have h2 := @stableSort_pairwise _ dirLeb (fun a b => entryPathLeb a b = true)
    dirLeb_trans dirLeb_total _ h1'
  refine List.Pairwise.imp ?_ h2
  intro a b hab
  obtain ⟨hd, hp⟩ := hab
  simp only [dirLeb, entryPathLeb] at hd hp
  unfold childOrd
  cases ha : a.is_dir <;> cases hb : b.is_dir <;> rw [ha, hb] at hd hp <;> simp_all

theorem mem_subEntriesL {x : TreeEntry} :
    ∀ {cs : List TreeEntry}, x ∈ TreeEntry.subEntriesL cs ↔ ∃ c ∈ cs, x ∈ c.subEntries := by
  intro cs
  induction cs with
  | nil => simp [TreeEntry.subEntriesL]
  | cons c cs ih =>
    simp only [TreeEntry.subEntriesL, List.mem_append, ih]
    constructor
    · rintro (h | ⟨c2, hc2, hx⟩)
      · exact ⟨c, List.mem_cons_self c cs, h⟩
      · exact ⟨c2, List.mem_cons_of_mem c hc2, hx⟩
    · rintro ⟨c2, hc2, hx⟩
      rcases List.mem_cons.mp hc2 with rfl | hc2
      · exact Or.inl hx
      · exact Or.inr ⟨c2, hc2, hx⟩

theorem mem_subEntries_mk {x : TreeEntry} {p : List String} {d l : Bool}
    {cs : List TreeEntry} {e : Bool} :
    x ∈ (TreeEntry.mk p d l cs e).subEntries ↔
      x = .mk p d l cs e ∨ ∃ c ∈ cs, x ∈ c.subEntries := by
  simp [TreeEntry.subEntries, mem_subEntriesL]

theorem self_mem_subEntries (t : TreeEntry) : t ∈ t.subEntries := by
  obtain ⟨p, d, l, cs, e⟩ := t
  exact mem_subEntries_mk.mpr (Or.inl rfl)

theorem DirFlagsOk_child {fs : Fs} {p : List String} {d l : Bool}
    {cs : List TreeEntry} {e : Bool} (h : DirFlagsOk fs (.mk p d l cs e))
    {c : TreeEntry} (hc : c ∈ cs) : DirFlagsOk fs c :=
  fun x hx => h x (mem_subEntries_mk.mpr (Or.inr ⟨c, hc, hx⟩))

theorem PC_child {p : List String} {d l : Bool} {cs : List TreeEntry} {e : Bool}
    (h : PathConsistent (.mk p d l cs e)) {c : TreeEntry} (hc : c ∈ cs) :
    PathConsistent c :=
  fun x hx => h x (mem_subEntries_mk.mpr (Or.inr ⟨c, hc, hx⟩))

theorem SS_child {p : List String} {d l : Bool} {cs : List TreeEntry} {e : Bool}
    (h : SiblingsSorted (.mk p d l cs e)) {c : TreeEntry} (hc : c ∈ cs) :
    SiblingsSorted c :=
  fun x hx => h x (mem_subEntries_mk.mpr (Or.inr ⟨c, hc, hx⟩))

theorem subEntries_of_leaf {x : TreeEntry} {p : List String} {d l e : Bool} :
    x ∈ (TreeEntry.mk p d l [] e).subEntries → x = .mk p d l [] e := by
  intro hx
  rcases mem_subEntries_mk.mp hx with rfl | ⟨c, hc, _⟩
  · rfl
  · simp at hc

theorem DirFlagsOk_new (fs : Fs) (q : List String) :
    DirFlagsOk fs (TreeEntry.new fs q) := by
  intro x hx
  have := subEntries_of_leaf hx
  subst this
  exact ⟨rfl, fun hne => absurd rfl hne⟩

theorem PC_new (fs : Fs) (q : List String) : PathConsistent (TreeEntry.new fs q) := by
  intro x hx
  have := subEntries_of_leaf hx
  subst this
  exact ⟨fun c hc => by simp [TreeEntry.children] at hc, by simp [TreeEntry.children]⟩

theorem SS_new (fs : Fs) (q : List String) : SiblingsSorted (TreeEntry.new fs q) := by
  intro x hx
  have := subEntries_of_leaf hx
  subst this
  simp [TreeEntry.children]

/-- The unfolding of one `update` step. -/
theorem update_succ (fs : Fs) (exp : ExpandedPaths) (fuel : Nat) (p : List String)
    (d l : Bool) (cs : List TreeEntry) (e0 : Bool) :
    TreeEntry.update fs exp (fuel + 1) (.mk p d l cs e0) =
      .mk p d l
        (((if exp.is_expanded p then
            TreeEntry.read_fs fs (.mk p d l cs (exp.is_expanded p))
          else .mk p d l cs (exp.is_expanded p)).children).map
          (TreeEntry.update fs exp fuel))
        (exp.is_expanded p) := rfl

/-- Membership in the children list produced by one `update` step: each is
the recursive update of either a reused former child or a freshly listed
entry. -/
theorem update_succ_children_mem (fs : Fs) (exp : ExpandedPaths) (fuel : Nat)
    {p : List String} {d l : Bool} {cs : List TreeEntry} {c2 : TreeEntry}
    (hc2 : c2 ∈ ((if exp.is_expanded p then
        TreeEntry.read_fs fs (.mk p d l cs (exp.is_expanded p))
      else .mk p d l cs (exp.is_expanded p)).children).map
        (TreeEntry.update fs exp fuel)) :
    ∃ c, c2 = TreeEntry.update fs exp fuel c ∧
      (c ∈ cs ∨ ∃ n, c = TreeEntry.new fs (p ++ [n])) := by
  obtain ⟨c, hcmem, hceq⟩ := List.mem_map.mp hc2
  refine ⟨c, hceq.symm, ?_⟩
  revert hcmem
  cases he : exp.is_expanded p
  · intro hcmem
    simp only [Bool.false_eq_true, if_false, TreeEntry.children] at hcmem
    exact Or.inl hcmem
  · intro hcmem
    simp only [if_true, read_fs_children] at hcmem
    have hmem := (sortChildren_perm _).mem_iff.mp hcmem
    revert hmem
    cases hrd : fs.readDir p
    · intro hmem; simp at hmem
    · rename_i ns
      intro hmem
      rcases mergeChildren_mem fs p ns cs c hmem with h | ⟨n, _, he2⟩
      · exact Or.inl h
      · exact Or.inr ⟨n, he2⟩

/-- `update` preserves the directory-flags invariant, given that listing a
non-directory fails. -/
theorem update_DirFlagsOk (fs : Fs)
    (hfs : ∀ p, fs.isDir p = false → fs.readDir p = none) (exp : ExpandedPaths) :
    ∀ (fuel : Nat) (t : TreeEntry), DirFlagsOk fs t →
      DirFlagsOk fs (TreeEntry.update fs exp fuel t) := by
  intro fuel
  induction fuel with
  | zero => intro t h; exact h
  | succ fuel ih =>
    intro t h
    obtain ⟨p, d, l, cs, e0⟩ := t
    intro x hx
    rw [update_succ] at hx
    rcases mem_subEntries_mk.mp hx with rfl | ⟨c2, hc2, hxc2⟩
    · have hself := h _ (self_mem_subEntries (.mk p d l cs e0))
      refine ⟨hself.1, ?_⟩
      intro hne
      have hbase : ((if exp.is_expanded p then
          TreeEntry.read_fs fs (.mk p d l cs (exp.is_expanded p))
        else .mk p d l cs (exp.is_expanded p)).children) ≠ [] := by
        intro hb
        rw [TreeEntry.children, hb] at hne
        exact hne rfl
      revert hbase
      cases he : exp.is_expanded p
      · intro hbase
        simp only [Bool.false_eq_true, if_false, TreeEntry.children] at hbase
        exact hself.2 hbase
      · intro hbase
        simp only [if_true, read_fs_children] at hbase
        cases hrd : fs.readDir p
        · rw [hrd] at hbase
          simp [sortChildren, stableSort] at hbase
        · cases hdir : fs.isDir p
          · exact absurd (hfs p hdir) (by rw [hrd]; simp)
          · exact hdir
    · obtain ⟨c, hc2eq, hcsrc⟩ := update_succ_children_mem fs exp fuel hc2
      have hdc : DirFlagsOk fs c := by
        rcases hcsrc with hmem | ⟨n, rfl⟩
        · exact DirFlagsOk_child h hmem
        · exact DirFlagsOk_new fs (p ++ [n])
      subst hc2eq
      exact ih c hdc x hxc2

/-- `update` preserves path consistency, given duplicate-free listings. -/
theorem update_PC (fs : Fs)
    (hnodup : ∀ p ns, fs.readDir p = some ns → ns.Nodup) (exp : ExpandedPaths) :
    ∀ (fuel : Nat) (t : TreeEntry), PathConsistent t →
      PathConsistent (TreeEntry.update fs exp fuel t) := by
  intro fuel
  induction fuel with
  | zero => intro t h; exact h
  | succ fuel ih =>
    intro t h
    obtain ⟨p, d, l, cs, e0⟩ := t
    intro x hx
    rw [update_succ] at hx
    rcases mem_subEntries_mk.mp hx with rfl | ⟨c2, hc2, hxc2⟩
    · have hself := h _ (self_mem_subEntries (.mk p d l cs e0))
      have hs1 : ∀ c ∈ cs, ∃ n, c.path = p ++ [n] := hself.1
      have hs2 : (cs.map TreeEntry.path).Nodup := hself.2
      constructor
      · intro c2 hc2
        obtain ⟨c, hc2eq, hcsrc⟩ := update_succ_children_mem fs exp fuel hc2
        subst hc2eq
        show ∃ n, (TreeEntry.update fs exp fuel c).path = p ++ [n]
        rw [update_path]
        rcases hcsrc with hmem | ⟨n, rfl⟩
        · exact hs1 c hmem
        · exact ⟨n, rfl⟩
      · show ((((if exp.is_expanded p then
            TreeEntry.read_fs fs (.mk p d l cs (exp.is_expanded p))
          else .mk p d l cs (exp.is_expanded p)).children).map
            (TreeEntry.update fs exp fuel)).map TreeEntry.path).Nodup
        rw [map_path_map_update]
        cases he : exp.is_expanded p
        · simp only [Bool.false_eq_true, if_false, TreeEntry.children]
          exact hs2
        · simp only [if_true, read_fs_children]
          cases hrd : fs.readDir p
          · simp [sortChildren, stableSort]
          · rename_i ns
            simp only [hrd]
            have hperm : ((sortChildren (mergeChildren fs p cs ns)).map TreeEntry.path).Perm
                ((mergeChildren fs p cs ns).map TreeEntry.path) :=
              (sortChildren_perm _).map TreeEntry.path
            rw [hperm.nodup_iff, mergeChildren_paths]
            exact ((hnodup p ns hrd).map (fun a b hab => by simpa using hab))
    · obtain ⟨c, hc2eq, hcsrc⟩ := update_succ_children_mem fs exp fuel hc2
      have hdc : PathConsistent c := by
        rcases hcsrc with hmem | ⟨n, rfl⟩
        · exact PC_child h hmem
        · exact PC_new fs (p ++ [n])
      subst hc2eq
      exact ih c hdc x hxc2

theorem childOrd_update (fs : Fs) (exp : ExpandedPaths) (fuel : Nat)
    (a b : TreeEntry) (h : childOrd a b) :
    childOrd (TreeEntry.update fs exp fuel a) (TreeEntry.update fs exp fuel b) := by
  unfold childOrd at h ⊢
  rw [update_path, update_path, update_is_dir, update_is_dir]
  exact h

/-- `update` preserves sibling ordering. -/
theorem update_SS (fs : Fs) (exp : ExpandedPaths) :
    ∀ (fuel : Nat) (t : TreeEntry), SiblingsSorted t →
      SiblingsSorted (TreeEntry.update fs exp fuel t) := by
  intro fuel
  induction fuel with
  | zero => intro t h; exact h
  | succ fuel ih =>
    intro t h
    obtain ⟨p, d, l, cs, e0⟩ := t
    intro x hx
    rw [update_succ] at hx
    rcases mem_subEntries_mk.mp hx with rfl | ⟨c2, hc2, hxc2⟩
    · simp only [TreeEntry.children]
      rw [List.pairwise_map]
      have hbase : ((if exp.is_expanded p then
          TreeEntry.read_fs fs (.mk p d l cs (exp.is_expanded p))
        else .mk p d l cs (exp.is_expanded p)).children).Pairwise childOrd := by
        cases he : exp.is_expanded p
        · simp only [Bool.false_eq_true, if_false, TreeEntry.children]
          have hself := h _ (self_mem_subEntries (.mk p d l cs e0))
          simpa [TreeEntry.children] using hself
        · simp only [if_true, read_fs_children]
          exact sortChildren_pairwise _
      exact hbase.imp (fun hab => childOrd_update fs exp fuel _ _ hab)
    · obtain ⟨c, hc2eq, hcsrc⟩ := update_succ_children_mem fs exp fuel hc2
      have hdc : SiblingsSorted c := by
        rcases hcsrc with hmem | ⟨n, rfl⟩
        · exact SS_child h hmem
        · exact SS_new fs (p ++ [n])
      subst hc2eq
      exact ih c hdc x hxc2

theorem select_path_root (st : FileTreeState) (p : List String) :
    (st.select_path p).root_entry = st.root_entry := by
  unfold FileTreeState.select_path
  split <;> rfl

theorem state_update_root (fs : Fs) (cfg : Config) (fuel : Nat) (st : FileTreeState) :
    (FileTreeState.update fs cfg fuel st).root_entry =
      TreeEntry.update fs st.expanded_paths fuel st.root_entry := by
  unfold FileTreeState.update
  dsimp only
  split
  · rw [select_path_root]
  · rfl

theorem state_update_lines (fs : Fs) (cfg : Config) (fuel : Nat) (st : FileTreeState) :
    (FileTreeState.update fs cfg fuel st).lines =
      TreeEntry.build_lines_rec cfg
        (TreeEntry.update fs st.expanded_paths fuel st.root_entry) 0 := by
  unfold FileTreeState.update
  dsimp only
  split
  · unfold FileTreeState.select_path
    split <;> rfl
  · rfl

theorem expand_foldl_root (st : FileTreeState) :
    ∀ l : List (List String),
      (l.foldl (fun s anc => s.expand anc) st).root_entry = st.root_entry := by
  suffices h : ∀ (l : List (List String)) (s : FileTreeState),
      (l.foldl (fun s anc => s.expand anc) s).root_entry = s.root_entry by
    intro l; exact h l st
  intro l
  induction l with
  | nil => intro s; rfl
  | cons a t ih => intro s; rw [List.foldl_cons]; exact ih _

theorem select_up_root (st : FileTreeState) : (st.select_up).root_entry = st.root_entry := by
  unfold FileTreeState.select_up
  split
  · rfl
  · split <;> rfl

/-- Every operation either leaves the root entry untouched or replaces it
with its `TreeEntry.update`; so any tree property preserved by
`TreeEntry.update` is a `runOps` invariant. -/
theorem runOps_tree_pres (fs : Fs) (cfg : Config) (P : TreeEntry → Prop)
    (hP : ∀ exp fuel t, P t → P (TreeEntry.update fs exp fuel t)) :
    ∀ (ops : List TreeOp) (st : FileTreeState),
      P st.root_entry → P (runOps fs cfg st ops).root_entry := by
  intro ops
  induction ops with
  | nil => intro st h; exact h
  | cons op t ih =>
    intro st h
    rw [runOps, List.foldl_cons]
    apply ih
    cases op with
    | expand p => exact h
    | collapse p => exact h
    | toggle p => exact h
    | update fuel => rw [applyOp, state_update_root]; exact hP _ _ _ h
    | select_next =>
      rw [applyOp]
      unfold FileTreeState.select_next
      split <;> exact h
    | select_prev =>
      rw [applyOp]
      unfold FileTreeState.select_prev
      split <;> exact h
    | select_nth n =>
      rw [applyOp]
      unfold FileTreeState.select_nth
      split <;> exact h
    | select_up => rw [applyOp, select_up_root]; exact h
    | select_path p => rw [applyOp, select_path_root]; exact h
    | expand_to_path p => rw [applyOp]; unfold FileTreeState.expand_to_path
                          rw [expand_foldl_root]; exact h

theorem subEntriesL_append (l1 l2 : List TreeEntry) :
    TreeEntry.subEntriesL (l1 ++ l2) =
      TreeEntry.subEntriesL l1 ++ TreeEntry.subEntriesL l2 := by
  induction l1 with
  | nil => rfl
  | cons c cs ih => simp [TreeEntry.subEntriesL, ih]

theorem subEntries_path_pre (t : TreeEntry) (hpc : PathConsistent t) :
    ∀ x ∈ t.subEntries, t.path <+: x.path := by
  induction t using TreeEntry.ind_mem with
  | _ p d l cs e ih =>
    intro x hx
    rcases mem_subEntries_mk.mp hx with rfl | ⟨c, hc, hxc⟩
    · exact List.prefix_refl _
    · obtain ⟨n, hn⟩ := (hpc _ (self_mem_subEntries (.mk p d l cs e))).1 c hc
      have h1 : c.path <+: x.path := ih c hc (PC_child hpc hc) x hxc
      show p <+: x.path
      refine List.IsPrefix.trans ?_ h1
      rw [hn]
      exact List.prefix_append _ _

theorem mem_linesL {cfg : Config} {ln : TreeEntryLine} :
    ∀ {cs : List TreeEntry} {lvl : Nat},
      ln ∈ TreeEntry.build_lines_recL cfg cs lvl ↔
        ∃ c ∈ cs, ln ∈ TreeEntry.build_lines_rec cfg c lvl := by
  intro cs lvl
  induction cs with
  | nil => simp [TreeEntry.build_lines_recL]
  | cons c cs ih =>
    simp only [TreeEntry.build_lines_recL, List.mem_append, ih]
    constructor
    · rintro (h | ⟨c2, hc2, hx⟩)
      · exact ⟨c, List.mem_cons_self c cs, h⟩
      · exact ⟨c2, List.mem_cons_of_mem c hc2, hx⟩
    · rintro ⟨c2, hc2, hx⟩
      rcases List.mem_cons.mp hc2 with rfl | hc2
      · exact Or.inl hx
      · exact Or.inr ⟨c2, hc2, hx⟩

theorem build_line_eq {t : TreeEntry} {cfg : Config} {lvl : Nat} {ln : TreeEntryLine}
    (h : t.build_line cfg lvl = some ln) : ln = ⟨t.path, lvl⟩ := by
  unfold TreeEntry.build_line at h
  split at h
  · exact absurd h (by simp)
  · obtain ⟨a, _, hfa⟩ := Option.map_eq_some'.mp h
    exact hfa.symm

theorem lines_sub (cfg : Config) (t : TreeEntry) :
    ∀ (lvl : Nat) (ln : TreeEntryLine), ln ∈ TreeEntry.build_lines_rec cfg t lvl →
      ∃ x ∈ t.subEntries, ln.path = x.path := by
  induction t using TreeEntry.ind_mem with
  | _ p d l cs e ih =>
    intro lvl ln hln
    simp only [TreeEntry.build_lines_rec] at hln
    have hline : ∀ h2 : ln ∈ ((TreeEntry.mk p d l cs e).build_line cfg lvl).toList,
        ∃ x ∈ (TreeEntry.mk p d l cs e).subEntries, ln.path = x.path := by
      intro h2
      have hsome := Option.mem_toList.mp h2
      have := build_line_eq hsome
      subst this
      exact ⟨.mk p d l cs e, self_mem_subEntries _, rfl⟩
    split at hln
    · rcases List.mem_append.mp hln with h2 | h2
      · exact hline h2
      · obtain ⟨c, hc, hlc⟩ := mem_linesL.mp h2
        obtain ⟨x, hx, hpx⟩ := ih c hc (lvl + 1) ln hlc
        exact ⟨x, mem_subEntries_mk.mpr (Or.inr ⟨c, hc, hx⟩), hpx⟩
    · exact hline hln

theorem lines_path_pre (cfg : Config) {t : TreeEntry} (hpc : PathConsistent t)
    {lvl : Nat} {ln : TreeEntryLine} (h : ln ∈ TreeEntry.build_lines_rec cfg t lvl) :
    t.path <+: ln.path := by
  obtain ⟨x, hx, hp⟩ := lines_sub cfg t lvl ln h
  rw [hp]
  exact subEntries_path_pre t hpc x hx

/-- Two sibling paths below `p0` that are both prefixes of the same path are
equal. -/
theorem sibling_prefix_eq {p0 q : List String} {n n2 : String}
    (h1 : p0 ++ [n] <+: q) (h2 : p0 ++ [n2] <+: q) : p0 ++ [n] = p0 ++ [n2] :=
  List.IsPrefix.eq_of_length
    (List.prefix_of_prefix_length_le h1 h2 (by simp)) (by simp)

theorem linesL_nodup (cfg : Config) :
    ∀ (cs : List TreeEntry) (lvl : Nat) (p0 : List String),
      (∀ c ∈ cs, PathConsistent c) →
      (∀ c ∈ cs, ∃ n, c.path = p0 ++ [n]) →
      (cs.map TreeEntry.path).Nodup →
      (∀ c ∈ cs, ∀ lv,
        ((TreeEntry.build_lines_rec cfg c lv).map TreeEntryLine.path).Nodup) →
      ((TreeEntry.build_lines_recL cfg cs lvl).map TreeEntryLine.path).Nodup ∧
      (∀ q ∈ (TreeEntry.build_lines_recL cfg cs lvl).map TreeEntryLine.path,
        ∃ c ∈ cs, c.path <+: q) := by
  intro cs
  induction cs with
  | nil =>
    intro lvl p0 _ _ _ _
    exact ⟨by simp [TreeEntry.build_lines_recL], by simp [TreeEntry.build_lines_recL]⟩
  | cons c cs ih =>
    intro lvl p0 hpc hext hnd hln
    have hndc : (cs.map TreeEntry.path).Nodup := (List.nodup_cons.mp hnd).2
    have hcnot : c.path ∉ cs.map TreeEntry.path := (List.nodup_cons.mp hnd).1
    obtain ⟨ihnd, ihpre⟩ := ih lvl p0
      (fun x hx => hpc x (List.mem_cons_of_mem c hx))
      (fun x hx => hext x (List.mem_cons_of_mem c hx)) hndc
      (fun x hx => hln x (List.mem_cons_of_mem c hx))
    have hpcc := hpc c (List.mem_cons_self c cs)
    obtain ⟨n, hn⟩ := hext c (List.mem_cons_self c cs)
    constructor
    · show ((TreeEntry.build_lines_rec cfg c lvl ++
        TreeEntry.build_lines_recL cfg cs lvl).map TreeEntryLine.path).Nodup
      rw [List.map_append, List.nodup_append]
      refine ⟨hln c (List.mem_cons_self c cs) lvl, ihnd, ?_⟩
      intro q hq1 hq2
      obtain ⟨ln1, hln1, rfl⟩ := List.mem_map.mp hq1
      have hpre1 : c.path <+: ln1.path := lines_path_pre cfg hpcc hln1
      obtain ⟨c2, hc2, hpre2⟩ := ihpre _ hq2
      obtain ⟨n2, hn2⟩ := hext c2 (List.mem_cons_of_mem c hc2)
      have heq : c.path = c2.path := by
        rw [hn, hn2]
        exact sibling_prefix_eq (hn ▸ hpre1) (hn2 ▸ hpre2)
      refine hcnot ?_
      rw [heq]
      exact List.mem_map.mpr ⟨c2, hc2, rfl⟩
    · intro q hq
      have hq2 : q ∈ (TreeEntry.build_lines_rec cfg c lvl ++
        TreeEntry.build_lines_recL cfg cs lvl).map TreeEntryLine.path := hq
      rw [List.map_append] at hq2
      rcases List.mem_append.mp hq2 with h2 | h2
      · obtain ⟨ln1, hln1, rfl⟩ := List.mem_map.mp h2
        exact ⟨c, List.mem_cons_self c cs, lines_path_pre cfg hpcc hln1⟩
      · obtain ⟨c2, hc2, hp2⟩ := ihpre _ h2
        exact ⟨c2, List.mem_cons_of_mem c hc2, hp2⟩

theorem lines_nodup (cfg : Config) (t : TreeEntry) (hpc : PathConsistent t) :
    ∀ lvl, ((TreeEntry.build_lines_rec cfg t lvl).map TreeEntryLine.path).Nodup := by
  induction t using TreeEntry.ind_mem with
  | _ p d l cs e ih =>
    intro lvl
    have hself := hpc _ (self_mem_subEntries (.mk p d l cs e))
    have hch : ∀ c ∈ cs, PathConsistent c := fun c hc => PC_child hpc hc
    have hext : ∀ c ∈ cs, ∃ n, c.path = p ++ [n] := hself.1
    have hnd : (cs.map TreeEntry.path).Nodup := hself.2
    obtain ⟨hLnd, hLpre⟩ := linesL_nodup cfg cs (lvl + 1) p hch hext hnd
      (fun c hc lv => ih c hc (hch c hc) lv)
    have hLineNd : ∀ h2 : True,
        (((TreeEntry.mk p d l cs e).build_line cfg lvl).toList.map
          TreeEntryLine.path).Nodup := by
      intro _
      cases hline : (TreeEntry.mk p d l cs e).build_line cfg lvl <;> simp
    simp only [TreeEntry.build_lines_rec]
    split
    · rw [List.map_append, List.nodup_append]
      refine ⟨hLineNd trivial, hLnd, ?_⟩
      intro q hq1 hq2
      obtain ⟨ln1, hln1, rfl⟩ := List.mem_map.mp hq1
      have hsome := Option.mem_toList.mp hln1
      have := build_line_eq hsome
      subst this
      obtain ⟨c, hc, hpre⟩ := hLpre _ hq2
      obtain ⟨n, hn⟩ := hext c hc
      rw [hn] at hpre
      have hpre2 : p ++ [n] <+: p := hpre
      have := List.IsPrefix.length_le hpre2
      simp only [List.length_append, List.length_singleton] at this
      omega
    · exact hLineNd trivial

theorem pred_false_of_separate {q : List String} {c x : TreeEntry}
    (hpc : PathConsistent c) (hxc : x ∈ c.subEntries) (hnp : ¬ (c.path <+: q)) :
    (x.is_expanded && x.path.isPrefixOf q && !(x.path == q)) = false := by
  by_contra h
  rw [Bool.not_eq_false, Bool.and_eq_true, Bool.and_eq_true] at h
  have hpre : x.path <+: q := List.isPrefixOf_iff_prefix.mp h.1.2
  exact hnp ((subEntries_path_pre c hpc x hxc).trans hpre)

theorem countExpAnc_eq (t : TreeEntry) (q : List String) :
    countExpAnc t q = (t.subEntries.filter
      (fun x => x.is_expanded && x.path.isPrefixOf q && !(x.path == q))).length := rfl

theorem filter_subEntriesL_nil {q : List String} {l : List TreeEntry}
    (hpc : ∀ c ∈ l, PathConsistent c) (hnp : ∀ c ∈ l, ¬ (c.path <+: q)) :
    (TreeEntry.subEntriesL l).filter
      (fun x => x.is_expanded && x.path.isPrefixOf q && !(x.path == q)) = [] := by
  rw [List.filter_eq_nil_iff]
  intro x hx
  obtain ⟨c, hc, hxc⟩ := mem_subEntriesL.mp hx
  rw [pred_false_of_separate (hpc c hc) hxc (hnp c hc)]
  simp

theorem lines_level (cfg : Config) (t : TreeEntry) (hpc : PathConsistent t) :
    ∀ (lvl : Nat) (ln : TreeEntryLine), ln ∈ TreeEntry.build_lines_rec cfg t lvl →
      ln.level = lvl + countExpAnc t ln.path := by
  induction t using TreeEntry.ind_mem with
  | _ p d l cs e ih =>
    intro lvl ln hln
    have hself := hpc _ (self_mem_subEntries (.mk p d l cs e))
    have hch : ∀ c ∈ cs, PathConsistent c := fun c hc => PC_child hpc hc
    have hext : ∀ c ∈ cs, ∃ n, c.path = p ++ [n] := hself.1
    have hnd : (cs.map TreeEntry.path).Nodup := hself.2
    have hnpref : ∀ c ∈ cs, ¬ (c.path <+: p) := by
      intro c hc hpre
      obtain ⟨n, hn⟩ := hext c hc
      rw [hn] at hpre
      have := List.IsPrefix.length_le hpre
      simp at this
    have hselfcase : ∀ h2 : ln ∈ ((TreeEntry.mk p d l cs e).build_line cfg lvl).toList,
        ln.level = lvl + countExpAnc (TreeEntry.mk p d l cs e) ln.path := by
      intro h2
      have hsome := Option.mem_toList.mp h2
      have := build_line_eq hsome
      subst this
      show lvl = lvl + countExpAnc (TreeEntry.mk p d l cs e) p
      rw [countExpAnc_eq]
      show lvl = lvl + ((TreeEntry.mk p d l cs e ::
        TreeEntry.subEntriesL cs).filter
        (fun x => x.is_expanded && x.path.isPrefixOf p && !(x.path == p))).length
      rw [List.filter_cons_of_neg (by simp [TreeEntry.path, TreeEntry.is_expanded]),
        filter_subEntriesL_nil hch hnpref]
      rfl
    simp only [TreeEntry.build_lines_rec] at hln
    split at hln
    · rename_i hcond
      rcases List.mem_append.mp hln with h2 | h2
      · exact hselfcase h2
      · obtain ⟨c, hc, hlc⟩ := mem_linesL.mp h2
        have hexp : e = true := by
          have hcond2 := hcond
          simp only [Bool.and_eq_true] at hcond2
          exact hcond2.2
        obtain ⟨n, hn⟩ := hext c hc
        have hpre : c.path <+: ln.path := lines_path_pre cfg (hch c hc) hlc
        have hplen : p.length < ln.path.length := by
          have := List.IsPrefix.length_le hpre
          rw [hn] at this
          simp at this
          omega
        have hppre : p <+: ln.path := by
          refine List.IsPrefix.trans ?_ hpre
          rw [hn]
          exact List.prefix_append _ _
        have hpne : (p == ln.path) = false := by
          rw [beq_eq_false_iff_ne]
          intro hpq
          rw [hpq] at hplen
          omega
        obtain ⟨s, t2, hcs⟩ := List.append_of_mem hc
        subst hcs
        have hndm : ((s.map TreeEntry.path) ++
            (c.path :: t2.map TreeEntry.path)).Nodup := by
          simpa using hnd
        obtain ⟨_, hnd2, hdisj⟩ := List.nodup_append.mp hndm
        have hnps : ∀ c2 ∈ s, ¬ (c2.path <+: ln.path) := by
          intro c2 hc2 hpre2
          obtain ⟨n2, hn2⟩ := hext c2 (by simp [hc2])
          have heq : c2.path = c.path := by
            rw [hn, hn2]
            exact sibling_prefix_eq (hn2 ▸ hpre2) (hn ▸ hpre)
          have hmem2 : c2.path ∈ c.path :: t2.map TreeEntry.path := by
            rw [heq]
            exact List.mem_cons_self _ _
          exact hdisj (List.mem_map.mpr ⟨c2, hc2, rfl⟩) hmem2
        have hnpt : ∀ c2 ∈ t2, ¬ (c2.path <+: ln.path) := by
          intro c2 hc2 hpre2
          obtain ⟨n2, hn2⟩ := hext c2 (by simp [hc2])
          have heq : c2.path = c.path := by
            rw [hn, hn2]
            exact sibling_prefix_eq (hn2 ▸ hpre2) (hn ▸ hpre)
          have hmem2 : c.path ∈ t2.map TreeEntry.path := by
            rw [← heq]
            exact List.mem_map.mpr ⟨c2, hc2, rfl⟩
          exact (List.nodup_cons.mp hnd2).1 hmem2
        have hcount : countExpAnc (TreeEntry.mk p d l (s ++ c :: t2) e) ln.path =
            1 + countExpAnc c ln.path := by
          rw [countExpAnc_eq]
          show ((TreeEntry.mk p d l (s ++ c :: t2) e ::
            TreeEntry.subEntriesL (s ++ c :: t2)).filter
            (fun x => x.is_expanded && x.path.isPrefixOf ln.path &&
              !(x.path == ln.path))).length = 1 + countExpAnc c ln.path
          rw [List.filter_cons_of_pos (by
            simp only [TreeEntry.is_expanded, TreeEntry.path, hexp, hpne,
              Bool.not_false, Bool.and_true, Bool.true_and]
            exact List.isPrefixOf_iff_prefix.mpr hppre)]
          rw [subEntriesL_append]
          show (((TreeEntry.subEntriesL s ++
            (c.subEntries ++ TreeEntry.subEntriesL t2)).filter
            (fun x => x.is_expanded && x.path.isPrefixOf ln.path &&
              !(x.path == ln.path))).length) + 1 = 1 + countExpAnc c ln.path
          rw [List.filter_append, List.filter_append,
            filter_subEntriesL_nil (fun c2 hc2 => hch c2 (by simp [hc2])) hnps,
            filter_subEntriesL_nil (fun c2 hc2 => hch c2 (by simp [hc2])) hnpt]
          rw [countExpAnc_eq]
          simp [Nat.add_comm]
        rw [hcount]
        have := ih c (by simp) (hch c (by simp)) (lvl + 1) ln hlc
        omega
    · exact hselfcase hln

/-! ### The claims -/

/-- Claim C1 (counterexample): after expanding `/r/a`, updating, collapsing
`/r/a` and updating again, the entry for `/r/a` still holds its previously
read child — a tree entry with a non-empty children list that is *not*
expanded, contradicting "children is non-empty only if the entry is a
directory and expanded". -/
theorem collapse_keeps_children_cex :
    ∃ e ∈ (runOps fsEx Config.default (FileTreeState.new fsEx ["r"]) opsC1).root_entry.subEntries,
      e.children.length ≠ 0 ∧ e.is_expanded = false := by
  decide

/-- Claim C1 (amended): over any operation sequence from a fresh state, an
entry's children list is non-empty only if the entry is a directory — but a
collapsed directory keeps the children read while it was expanded (they
simply produce no lines), so "and is expanded" does not hold.  The
filesystem hypothesis says listing a non-directory fails, which is how
`std::fs::read_dir` behaves. -/
theorem children_nonempty_only_dirs :
    ∀ (fs : Fs) (cfg : Config) (root : List String) (ops : List TreeOp),
      (∀ p, fs.isDir p = false → fs.readDir p = none) →
      ∀ e ∈ (runOps fs cfg (FileTreeState.new fs root) ops).root_entry.subEntries,
        e.children ≠ [] → e.is_dir = true := by
  intro fs cfg root ops hfs e he hne
  have h0 : DirFlagsOk fs (FileTreeState.new fs root).root_entry := DirFlagsOk_new fs root
  have h := runOps_tree_pres fs cfg (DirFlagsOk fs)
    (fun exp fuel t ht => update_DirFlagsOk fs hfs exp fuel t ht) ops _ h0
  obtain ⟨h1, h2⟩ := h e he
  rw [h1]
  exact h2 hne

/-- Witness for the amended C1: on `fsEx` after `opsC1` the collapsed entry
`eA` for `/r/a` has non-empty children, and the theorem yields that it is a
directory. -/
theorem children_nonempty_only_dirs_witness :
    ((∀ p, fsEx.isDir p = false → fsEx.readDir p = none) ∧
     eA ∈ (runOps fsEx Config.default (FileTreeState.new fsEx ["r"]) opsC1).root_entry.subEntries ∧
     eA.children ≠ []) ∧
    eA.is_dir = true := by
  have hfs : ∀ p, fsEx.isDir p = false → fsEx.readDir p = none := by
    intro p hp
    by_cases h1 : p = ["r"]
    · simp [fsEx, h1] at hp
    · by_cases h2 : p = ["r", "a"]
      · simp [fsEx, h2] at hp
      · simp [fsEx, h1, h2]
  have hmem : eA ∈ (runOps fsEx Config.default
      (FileTreeState.new fsEx ["r"]) opsC1).root_entry.subEntries := by
    rw [show (runOps fsEx Config.default
        (FileTreeState.new fsEx ["r"]) opsC1).root_entry.subEntries =
      [.mk ["r"] true false [eA, .mk ["r", "f"] false false [] false] true,
       eA,
       .mk ["r", "a", "b"] false false [] false,
       .mk ["r", "f"] false false [] false] from rfl]
    exact List.mem_cons_of_mem _ (List.mem_cons_self _ _)
  have hne : eA.children ≠ [] := fun h => List.noConfusion h
  exact ⟨⟨hfs, hmem, hne⟩,
    children_nonempty_only_dirs fsEx Config.default ["r"] opsC1 hfs eA hmem hne⟩

/-- Which built-in arm fires, and hence which events it emits, is a pure
function of the pressed key. -/
theorem builtinStep_events (fs : Fs) (fuel : Nat) (app : App) (k : KeyPress) :
    (App.builtinStep fs fuel app k).2.2 = builtinEvents k := by
  obtain ⟨kc, km⟩ := k
  unfold App.builtinStep builtinEvents
  cases kc
  case Char c =>
    dsimp only
    simp only [apply_ite (fun p : App × List Effect × List DispatchEvent => p.2.2),
      ite_self]
  case Right =>
    dsimp only
    simp only [apply_ite (fun p : App × List Effect × List DispatchEvent => p.2.2),
      ite_self]
  case Left =>
    dsimp only
    simp only [apply_ite (fun p : App × List Effect × List DispatchEvent => p.2.2),
      ite_self]
  all_goals rfl

/-- Claim C2: key dispatch.  Without a focused prompt, `on_key` first runs
the user keymap entry for the key (when one exists it is executed — its
event is recorded) and then evaluates the built-in `match` on the resulting
state unconditionally; which built-in events fire depends only on the key,
not on the application state, so a user mapping never suppresses them.
With a focused prompt the key is delivered to the prompt (running at most
the command the prompt emits) and neither the keymap nor any built-in
arm runs. -/
theorem on_key_dispatch_policy :
    ∀ (fs : Fs) (fuel : Nat) (app : App) (k : KeyPress),
      (app.statusline.has_focus = false →
        (App.on_key fs fuel app k).2.2 =
          (match KeyMap.get_mapping app.keymap k with
           | some c =>
             DispatchEvent.mappedCommand c ::
               (App.builtinStep fs fuel (App.run_command fs fuel app c).1 k).2.2
           | none => (App.builtinStep fs fuel app k).2.2) ∧
        (∀ c, KeyMap.get_mapping app.keymap k = some c →
          DispatchEvent.mappedCommand c ∈ (App.on_key fs fuel app k).2.2)) ∧
      (∀ app2, (App.builtinStep fs fuel app2 k).2.2 = builtinEvents k) ∧
      (app.statusline.has_focus = true →
        ((App.on_key fs fuel app k).2.2 = [.promptKey k] ∨
         ∃ c, (App.on_key fs fuel app k).2.2 = [.promptKey k, .promptCommand c]) ∧
        (∀ c, DispatchEvent.mappedCommand c ∉ (App.on_key fs fuel app k).2.2) ∧
        (∀ b, DispatchEvent.builtin b ∉ (App.on_key fs fuel app k).2.2)) := by
  intro fs fuel app k
  refine ⟨fun hfoc => ⟨?_, ?_⟩, fun app2 => ?_, fun hfoc => ?_⟩
  · unfold App.on_key
    simp only [hfoc, Bool.false_eq_true, if_false]
    cases hm : KeyMap.get_mapping app.keymap k <;> simp [hm]
  · intro c hm
    unfold App.on_key
    simp only [hfoc, Bool.false_eq_true, if_false]
    simp [hm]
  · exact builtinStep_events fs fuel app2 k
  · unfold App.on_key
    simp only [hfoc, if_true]
    cases hc : (app.statusline.on_key k).2.2 with
    | none =>
      refine ⟨Or.inl (by simp [hc]), fun c => by simp [hc], fun b => by simp [hc]⟩
    | some c =>
      refine ⟨Or.inr ⟨c, by simp [hc]⟩, fun c2 => by simp [hc], fun b => by simp [hc]⟩

/-- Claim C2 witness: on the example app with `j` mapped to `Echo`, pressing
`j` runs the mapped command and still fires the built-in next-selection
binding; with a focused prompt the same key goes to the prompt alone. -/
theorem on_key_dispatch_policy_witness :
    (App.on_key fsEx 5 { appEx with keymap := [(⟨.Char 'j', KeyModifiers.NONE⟩,
        Command.Echo "hi")] } ⟨.Char 'j', KeyModifiers.NONE⟩).2.2 =
      (match KeyMap.get_mapping [(⟨.Char 'j', KeyModifiers.NONE⟩, Command.Echo "hi")]
          ⟨.Char 'j', KeyModifiers.NONE⟩ with
       | some c =>
         DispatchEvent.mappedCommand c ::
           (App.builtinStep fsEx 5
             (App.run_command fsEx 5
               { appEx with keymap := [(⟨.Char 'j', KeyModifiers.NONE⟩, Command.Echo "hi")] }
               c).1 ⟨.Char 'j', KeyModifiers.NONE⟩).2.2
       | none => (App.builtinStep fsEx 5
           { appEx with keymap := [(⟨.Char 'j', KeyModifiers.NONE⟩, Command.Echo "hi")] }
           ⟨.Char 'j', KeyModifiers.NONE⟩).2.2) ∧
    (∀ b, DispatchEvent.builtin b ∉
      (App.on_key fsEx 5
        { appEx with statusline :=
            { StatusLine.new with prompt_state := some ⟨.CmdPrompt, "", [""], 0⟩ } }
        ⟨.Char 'j', KeyModifiers.NONE⟩).2.2) :=
  ⟨((on_key_dispatch_policy fsEx 5 { appEx with keymap := [(⟨.Char 'j', KeyModifiers.NONE⟩,
      Command.Echo "hi")] } ⟨.Char 'j', KeyModifiers.NONE⟩).1 (by decide)).1,
   ((on_key_dispatch_policy fsEx 5
      { appEx with statusline :=
          { StatusLine.new with prompt_state := some ⟨.CmdPrompt, "", [""], 0⟩ } }
      ⟨.Char 'j', KeyModifiers.NONE⟩).2.2 (by decide)).2.2⟩

/-- Claim C3 (counterexample): the short form is `char_key()` itself, so the
bare multi-character word `return` (no angle brackets) parses successfully
to the newline character instead of failing with a parse error. -/
theorem parse_key_bare_alias_cex :
    parse_key "return" = some ⟨.Char '\n', KeyModifiers.NONE⟩ ∧
    parse_key "return" ≠ none := by
  exact ⟨by decide, by decide⟩

/-- Claim C3 (amended): `parse_key` accepts the §4.2 grammar — `<c-a>` is
control-a, `<return>` is an unmodified newline, a bare one-byte character
equals its bracketed form — and rejects unrecognized words (bracketed or
bare), multi-character short forms *other than* the eight word aliases
(`return`, `ret`, `semicolon`, `gt`, `lt`, `percent`, `space`, `tab`),
which parse bare to their aliased character, and any input with trailing
characters. -/
theorem parse_key_grammar :
    parse_key "<c-a>" = some ⟨.Char 'a', KeyModifiers.CONTROL⟩ ∧
    parse_key "<return>" = some ⟨.Char '\n', KeyModifiers.NONE⟩ ∧
    (∀ c : Char, c ≠ '<' → c ≠ '>' → c.utf8Size = 1 →
      parse_key (String.mk [c]) = some ⟨.Char c, KeyModifiers.NONE⟩ ∧
      parse_key (String.mk ['<', c, '>']) = some ⟨.Char c, KeyModifiers.NONE⟩) ∧
    (∀ wc ∈ [("return", '\n'), ("ret", '\n'), ("semicolon", ';'), ("gt", '>'),
        ("lt", '<'), ("percent", '%'), ("space", ' '), ("tab", '\t')],
      parse_key wc.1 = some ⟨.Char wc.2, KeyModifiers.NONE⟩) ∧
    (∀ w : String, w.data ≠ [] → (∀ c ∈ w.data, c.isAlpha = true) →
      charKeyAlias w = none → namedKeyWord w = none →
      parse_key (String.mk ('<' :: w.data ++ ['>'])) = none ∧ parse_key w = none) ∧
    (parse_key "<a>x" = none ∧ parse_key "a>" = none ∧ parse_key "<c-a>b" = none ∧
      parse_key "" = none ∧ parse_key "<" = none ∧ parse_key "<c-esc>" = none) := by
  refine ⟨by decide, by decide, ?_, by decide, ?_, by decide⟩
  · intro c h1 h2 h3
    exact ⟨parse_key_char c h1 h2 h3, parse_key_bracket_char c h2 h3⟩
  · intro w h1 h2 h3 h4
    exact parse_key_word_fail w h1 h2 h3 h4

/-- Claim C3 witness: the generic clauses applied at `z` and at the
unrecognized word `foo`. -/
theorem parse_key_grammar_witness :
    (parse_key (String.mk ['z']) = some ⟨.Char 'z', KeyModifiers.NONE⟩ ∧
      parse_key (String.mk ['<', 'z', '>']) = some ⟨.Char 'z', KeyModifiers.NONE⟩) ∧
    (parse_key (String.mk ('<' :: ("foo" : String).data ++ ['>'])) = none ∧
      parse_key "foo" = none) :=
  ⟨parse_key_grammar.2.2.1 'z' (by decide) (by decide) (by decide),
   parse_key_grammar.2.2.2.2.1 "foo" (by decide) (by decide) (by decide) (by decide)⟩

/-- Claim C4: the tree flattening invariant.  A synchronized state is one
whose last operation is a rescan (`update`); on such a state the flattened
lines have pairwise distinct paths, every line's level is the number of
expanded entries of the tree whose path strictly contains the line's path,
and every sibling list is ordered with directories strictly before files
and path order inside each group (so the sibling lines, emitted in list
order, are grouped that way).  The filesystem hypothesis says a directory
listing never repeats a name. -/
theorem flatten_invariant :
    ∀ (fs : Fs) (cfg : Config) (root : List String) (ops : List TreeOp) (fuel : Nat),
      (∀ p ns, fs.readDir p = some ns → ns.Nodup) →
      ((runOps fs cfg (FileTreeState.new fs root) (ops ++ [.update fuel])).lines.map
          TreeEntryLine.path).Nodup ∧
      (∀ ln ∈ (runOps fs cfg (FileTreeState.new fs root) (ops ++ [.update fuel])).lines,
        ln.level = countExpAnc
          (runOps fs cfg (FileTreeState.new fs root) (ops ++ [.update fuel])).root_entry
          ln.path) ∧
      (∀ e ∈ (runOps fs cfg (FileTreeState.new fs root)
          (ops ++ [.update fuel])).root_entry.subEntries,
        e.children.Pairwise childOrd) := by
  intro fs cfg root ops fuel hnodup
  have hfold : runOps fs cfg (FileTreeState.new fs root) (ops ++ [.update fuel]) =
      FileTreeState.update fs cfg fuel (runOps fs cfg (FileTreeState.new fs root) ops) := by
    unfold runOps
    rw [List.foldl_append]
    rfl
  have hpc0 : PathConsistent
      (runOps fs cfg (FileTreeState.new fs root) ops).root_entry := by
    refine runOps_tree_pres fs cfg PathConsistent
      (fun exp fuel t ht => update_PC fs hnodup exp fuel t ht) ops _ ?_
    exact PC_new fs root
  have hss0 : SiblingsSorted
      (runOps fs cfg (FileTreeState.new fs root) ops).root_entry := by
    refine runOps_tree_pres fs cfg SiblingsSorted
      (fun exp fuel t ht => update_SS fs exp fuel t ht) ops _ ?_
    exact SS_new fs root
  have hpc : PathConsistent
      (TreeEntry.update fs (runOps fs cfg (FileTreeState.new fs root) ops).expanded_paths
        fuel (runOps fs cfg (FileTreeState.new fs root) ops).root_entry) :=
    update_PC fs hnodup _ fuel _ hpc0
  have hss : SiblingsSorted
      (TreeEntry.update fs (runOps fs cfg (FileTreeState.new fs root) ops).expanded_paths
        fuel (runOps fs cfg (FileTreeState.new fs root) ops).root_entry) :=
    update_SS fs _ fuel _ hss0
  rw [hfold, state_update_lines, state_update_root]
  refine ⟨lines_nodup cfg _ hpc 0, ?_, hss⟩
  intro ln hln
  have := lines_level cfg _ hpc 0 ln hln
  simpa using this

/-- Claim C4 witness: the invariant instantiated on the example filesystem
after the expand/collapse sequence followed by a rescan. -/
theorem flatten_invariant_witness :
    (∀ p ns, fsEx.readDir p = some ns → ns.Nodup) ∧
    (((runOps fsEx Config.default (FileTreeState.new fsEx ["r"])
        (opsC1 ++ [.update 5])).lines.map TreeEntryLine.path).Nodup ∧
      (∀ ln ∈ (runOps fsEx Config.default (FileTreeState.new fsEx ["r"])
          (opsC1 ++ [.update 5])).lines,
        ln.level = countExpAnc
          (runOps fsEx Config.default (FileTreeState.new fsEx ["r"])
            (opsC1 ++ [.update 5])).root_entry ln.path) ∧
      (∀ e ∈ (runOps fsEx Config.default (FileTreeState.new fsEx ["r"])
          (opsC1 ++ [.update 5])).root_entry.subEntries,
        e.children.Pairwise childOrd)) := by
  have h : ∀ p ns, fsEx.readDir p = some ns → ns.Nodup := by
    intro p ns hp
    by_cases h1 : p = ["r"]
    · subst h1
      have hns : ns = ["a", "f"] := by simpa [fsEx] using hp.symm
      subst hns
      decide
    · by_cases h2 : p = ["r", "a"]
      · subst h2
        have hns : ns = ["b"] := by simpa [fsEx] using hp.symm
        subst hns
        decide
      · simp [fsEx, h1, h2] at hp
  exact ⟨h, flatten_invariant fsEx Config.default ["r"] opsC1 5 h⟩

/-- Claim C5 (code bug, evaluated at the failing input): running
`Open(Some("/q"))` while `/r` is selected invokes the configured open
command with the *selected* path `/r` — not the explicit `/q` — and the
invocation is identical to `Open(None)`'s.  (The source computes the target
into the unused binding `_path` and drops it.) -/
theorem open_ignores_explicit_path :
    (App.run_command fsEx 5 appEx (Command.Open (some ["q"]))).2 =
      [Effect.shellOut Config.default.open_cmd ["r"] ["r"] ["r"] ["r"]] ∧
    (App.run_command fsEx 5 appEx (Command.Open (some ["q"]))).2 =
      (App.run_command fsEx 5 appEx (Command.Open none)).2 ∧
    (["r"] : List String) ≠ ["q"] := by
  exact ⟨by decide, by decide, by decide⟩

/-- Claim C6: for every state with a valid selected line, `select_up`
leaves the line list unchanged and moves the selection to some index `j ≤ i`
(in particular never below 0) that is either 0 or carries a line of level
strictly below the starting line's level. -/
theorem select_up_spec :
    ∀ (st : FileTreeState) (i : Nat) (ln : TreeEntryLine),
      st.selected = some i → st.lines.get? i = some ln →
      (st.select_up).lines = st.lines ∧
      ∃ j, (st.select_up).selected = some j ∧ j ≤ i ∧
        (j = 0 ∨ ∃ ln2, st.lines.get? j = some ln2 ∧ ln2.level < ln.level) := by
  intro st i ln hsel hline
  have hi : i < st.lines.length := by
    rw [List.get?_eq_getElem?] at hline
    exact (List.getElem?_eq_some_iff.mp hline).1
  have h := selUpLoop_spec st.lines ln.level i (Nat.le_of_lt hi)
  constructor
  · simp only [FileTreeState.select_up, hsel, hline]
  · refine ⟨selUpLoop st.lines ln.level i, ?_, h.1, h.2⟩
    simp only [FileTreeState.select_up, hsel, hline]

/-- Claim C6 witness: from the synchronized example state with line 2
(`/r/f`, level 1) selected, `select_up` lands on index 0. -/
theorem select_up_spec_witness :
    ((stEx.select_nth 2).select_up).lines = (stEx.select_nth 2).lines ∧
    ∃ j, ((stEx.select_nth 2).select_up).selected = some j ∧ j ≤ 2 ∧
      (j = 0 ∨ ∃ ln2, (stEx.select_nth 2).lines.get? j = some ln2 ∧
        ln2.level < (⟨["r", "f"], 1⟩ : TreeEntryLine).level) :=
  select_up_spec (stEx.select_nth 2) 2 ⟨["r", "f"], 1⟩ (by decide) (by decide)

/-- Claim C7: a directory entry whose listing fails during an expanded
rescan gets the empty children list, and a successful listing synchronizes
each (merged, sorted) child independently of its siblings — so one child's
failure cannot affect the rest of the tree.  (`update` has no error
channel at all: read errors are silently degraded, nothing is reported.) -/
theorem read_error_degrades :
    ∀ (fs : Fs) (exp : ExpandedPaths) (fuel : Nat) (t : TreeEntry),
      (exp.is_expanded t.path = true → fs.readDir t.path = none →
        (TreeEntry.update fs exp (fuel + 1) t).children = []) ∧
      (∀ ns, exp.is_expanded t.path = true → fs.readDir t.path = some ns →
        (TreeEntry.update fs exp (fuel + 1) t).children =
          (sortChildren (mergeChildren fs t.path t.children ns)).map
            (TreeEntry.update fs exp fuel)) := by
  intro fs exp fuel t
  obtain ⟨p, d, l, cs, e0⟩ := t
  constructor
  · intro hexp hread
    simp only [TreeEntry.path] at hexp hread
    simp [TreeEntry.update, TreeEntry.read_fs, TreeEntry.children, hexp, hread,
      sortChildren, stableSort]
  · intro ns hexp hread
    simp only [TreeEntry.path, TreeEntry.children] at hexp hread ⊢
    simp [TreeEntry.update, TreeEntry.read_fs, TreeEntry.children, hexp, hread]

/-- Claim C7 witness: an expanded entry over a failing listing ends with no
children; over `fsEx`'s root listing, the children are the two sorted
entries, each updated on its own. -/
theorem read_error_degrades_witness :
    (TreeEntry.update fsEx ⟨[["z"]]⟩ 1
      (TreeEntry.mk ["z"] false false [TreeEntry.mk ["z", "w"] false false [] false] false)).children = [] ∧
    (TreeEntry.update fsEx ⟨[["r"]]⟩ 1 (TreeEntry.new fsEx ["r"])).children =
      (sortChildren (mergeChildren fsEx ["r"] [] ["a", "f"])).map
        (TreeEntry.update fsEx ⟨[["r"]]⟩ 0) :=
  ⟨(read_error_degrades fsEx ⟨[["z"]]⟩ 0
      (TreeEntry.mk ["z"] false false [TreeEntry.mk ["z", "w"] false false [] false] false)).1
      (by decide) (by decide),
   (read_error_degrades fsEx ⟨[["r"]]⟩ 0 (TreeEntry.new fsEx ["r"])).2
      ["a", "f"] (by decide) (by decide)⟩

/-- Claim C8: the delete prompt's submit transform yields the confirmed
`Delete` command exactly on `"y"`/`"Y"`; at the app level, pressing Enter on
a focused delete prompt emits a filesystem-removal effect exactly when the
buffer is `"y"` or `"Y"`, and otherwise no effect at all (the entry is not
removed). -/
theorem delete_prompt_confirm :
    (∀ s : String, PromptKind.on_submit .DeletePrompt s =
        if s = "y" ∨ s = "Y" then some (Command.Delete false) else none) ∧
    (∀ (fs : Fs) (fuel : Nat) (app : App) (ps : PromptState) (s : String),
      app.statusline.prompt_state = some ps →
      ps.prompt = .DeletePrompt → ps.textarea = s →
      (App.on_key fs fuel app enterPress).2.1 =
        (if s = "y" ∨ s = "Y" then
          [if fs.isDir app.tree.entry.path then Effect.fsRemoveDirAll app.tree.entry.path
           else Effect.fsRemoveFile app.tree.entry.path]
         else [])) := by
  constructor
  · intro s; rfl
  · intro fs fuel app ps s hps hkind htext
    simp only [App.on_key, StatusLine.has_focus, StatusLine.on_key, hps,
      Option.isSome_some, eq_self_iff_true, if_true, PromptState.on_key, enterPress,
      PromptState.submit, hkind, htext, PromptKind.on_submit]
    by_cases hs : s = "y" ∨ s = "Y"
    · rw [if_pos hs]
      simp only [App.run_command]
      by_cases hd : fs.isDir app.tree.entry.path = true
      · simp [hd, hs]
      · simp [hd, hs]
    · rw [if_neg hs, if_neg hs]

/-- Claim C8 witness: on the example app with a focused delete prompt,
Enter with buffer `"y"` removes the selected file `/r`, and Enter with
buffer `"n"` emits no effect. -/
theorem delete_prompt_confirm_witness :
    PromptKind.on_submit .DeletePrompt "n" =
      (if ("n" : String) = "y" ∨ ("n" : String) = "Y" then some (Command.Delete false) else none) ∧
    (App.on_key fsEx 5
        { appEx with statusline :=
            { StatusLine.new with prompt_state := some ⟨.DeletePrompt, "n", ["n"], 0⟩ } }
        enterPress).2.1 =
      (if ("n" : String) = "y" ∨ ("n" : String) = "Y" then
        [if fsEx.isDir ["r"] then Effect.fsRemoveDirAll ["r"] else Effect.fsRemoveFile ["r"]]
       else []) := by
  refine ⟨delete_prompt_confirm.1 "n", ?_⟩
  have h := delete_prompt_confirm.2 fsEx 5
    { appEx with statusline :=
        { StatusLine.new with prompt_state := some ⟨.DeletePrompt, "n", ["n"], 0⟩ } }
    ⟨.DeletePrompt, "n", ["n"], 0⟩ "n" rfl rfl rfl
  simpa using h

/-- Claim C9: prompt history.  First, every key that does not end the
session (neither Enter nor Escape) only rewrites the live slot 0, so the
stored tail and the prompt kind survive editing.  Second, submitting the
same final buffer twice in a row stores it once: the second session leaves
that kind's stored history unchanged.  Third, from an empty history,
submitting `t`, then `u ≠ t`, then `t` again stores exactly the three
entries `[t, u, t]` (newest first). -/
theorem prompt_history_dedup :
    (∀ (ps : PromptState) (k : KeyPress),
      (∀ c, k.code = .Char c → c ≠ '\n') → k.code ≠ .Esc →
        ((ps.on_key k).1.history.tail = ps.history.tail ∧
         (ps.on_key k).1.prompt = ps.prompt ∧ (ps.on_key k).2.1 = false)) ∧
    (∀ (sl : StatusLine) (pk : PromptKind) (t : String),
      histLookup (sessionOutcome (sessionOutcome sl pk t) pk t).histories pk.prompt_text =
        histLookup (sessionOutcome sl pk t).histories pk.prompt_text) ∧
    (∀ (sl : StatusLine) (pk : PromptKind) (t u : String), t ≠ u →
      histLookup sl.histories pk.prompt_text = none →
      histLookup
          (sessionOutcome (sessionOutcome (sessionOutcome sl pk t) pk u) pk t).histories
          pk.prompt_text = some [t, u, t]) := by
  refine ⟨?_, ?_, ?_⟩
  · intro ps k hnl hne
    unfold PromptState.on_key
    split
    · rename_i heq
      exact absurd rfl (hnl _ heq)
    · exact ⟨rfl, rfl, rfl⟩
    · exact ⟨rfl, rfl, rfl⟩
    · rename_i heq
      exact absurd heq hne
    · refine ⟨?_, rfl, rfl⟩
      cases ps.history <;> rfl
  · intro sl pk t
    rw [sessionOutcome_lookup, sessionOutcome_lookup]
    simp [rustDedup_head_absorb]
  · intro sl pk t u hne hnone
    rw [sessionOutcome_lookup, sessionOutcome_lookup, sessionOutcome_lookup, hnone]
    have h1 : u ≠ t := Ne.symm hne
    simp [rustDedup, dedupTail, hne, h1]

/-- Claim C9 witness: editing with a plain character key keeps the tail;
on the command prompt, submitting `"a"` twice stores it once, and
`"a"`, `"b"`, `"a"` stores `["a", "b", "a"]`. -/
theorem prompt_history_dedup_witness :
    ((PromptState.new .CmdPrompt ["x"]).on_key ⟨.Char 'a', KeyModifiers.NONE⟩).1.history.tail =
      (PromptState.new .CmdPrompt ["x"]).history.tail ∧
    histLookup (sessionOutcome (sessionOutcome StatusLine.new .CmdPrompt "a") .CmdPrompt "a").histories
        PromptKind.CmdPrompt.prompt_text =
      histLookup (sessionOutcome StatusLine.new .CmdPrompt "a").histories
        PromptKind.CmdPrompt.prompt_text ∧
    histLookup
        (sessionOutcome (sessionOutcome (sessionOutcome StatusLine.new .CmdPrompt "a") .CmdPrompt "b")
          .CmdPrompt "a").histories PromptKind.CmdPrompt.prompt_text = some ["a", "b", "a"] :=
  ⟨(prompt_history_dedup.1 (PromptState.new .CmdPrompt ["x"]) ⟨.Char 'a', KeyModifiers.NONE⟩
      (by intro c hc; cases hc; decide) (by decide)).1,
   prompt_history_dedup.2.1 StatusLine.new .CmdPrompt "a",
   prompt_history_dedup.2.2 StatusLine.new .CmdPrompt "a" "b" (by decide) (by decide)⟩

/-- Claim C10: `current_dir` is the selected entry's own path for a
directory, its parent for a file, and the root `/` (the empty component
list) when the path has no parent; `NewFile`/`NewDirectory` with a name
create exactly under `current_dir`. -/
theorem current_dir_spec :
    ∀ (fs : Fs) (fuel : Nat) (app : App) (name : String) (st : FileTreeState),
      (st.entry.is_dir = true → st.current_dir = st.entry.path) ∧
      (st.entry.is_dir = false → st.entry.path = [] → st.current_dir = []) ∧
      (st.entry.is_dir = false → st.entry.path ≠ [] →
        st.current_dir = st.entry.path.dropLast) ∧
      (fs.pathExists (app.tree.current_dir ++ [name]) = false →
        ((App.run_command fs fuel app (Command.NewFile (some name))).2 =
          [if endsWithSlash name then Effect.fsCreateDirAll (app.tree.current_dir ++ [name])
           else Effect.fsWriteFile (app.tree.current_dir ++ [name])] ∧
         (App.run_command fs fuel app (Command.NewDir (some name))).2 =
          [Effect.fsCreateDirAll (app.tree.current_dir ++ [name])])) := by
  intro fs fuel app name st
  refine ⟨fun hdir => ?_, fun hfile hnil => ?_, fun hfile hnn => ?_, fun hex => ⟨?_, ?_⟩⟩
  · simp [FileTreeState.current_dir, hdir]
  · simp [FileTreeState.current_dir, hfile, hnil]
  · simp only [FileTreeState.current_dir, hfile, Bool.false_eq_true, if_false]
  · simp [App.run_command, hex]
    split <;> simp
  · simp [App.run_command, hex]

/-- Claim C10 witness: in the synchronized example state the selected entry
is the directory `/r`, so `current_dir` is `/r` and `mk x` / `mkdir x`
create `/r/x`. -/
theorem current_dir_spec_witness :
    (stEx.entry.is_dir = true → stEx.current_dir = stEx.entry.path) ∧
    (fsEx.pathExists (appEx.tree.current_dir ++ ["x"]) = false →
      ((App.run_command fsEx 5 appEx (Command.NewFile (some "x"))).2 =
        [if endsWithSlash "x" then Effect.fsCreateDirAll (appEx.tree.current_dir ++ ["x"])
         else Effect.fsWriteFile (appEx.tree.current_dir ++ ["x"])] ∧
       (App.run_command fsEx 5 appEx (Command.NewDir (some "x"))).2 =
        [Effect.fsCreateDirAll (appEx.tree.current_dir ++ ["x"])])) :=
  ⟨(current_dir_spec fsEx 5 appEx "x" stEx).1,
   (current_dir_spec fsEx 5 appEx "x" stEx).2.2.2⟩

end Sidetree
